import Mathlib

/-!
# cmdkit: Result combinators, CommandArgs parsing and Terminal dispatch

A shallow embedding of `include/result.hpp`, `include/command.hpp` and
`include/terminal.hpp`.

* A C++ exception is a value of `Exn`; a member function that can throw returns
  `Except Exn _`.
* A callable passed to a combinator (`F`, `OkFn`, `ErrFn`) may read and write the
  variables it captures and may throw. It is a function on an explicit external
  state `σ` returning the outcome together with the state it leaves behind.
* `std::string` is a list of characters, `std::vector<std::string>` a list of them.
* A read outside a container is undefined behaviour in C++; it is a value of `Fault`,
  kept apart from the exceptions.
* A handler or a not-found callback acts on the external state `σ`; the command table
  is reached through the member functions of `Terminal` only.
* A member function whose ref-qualified overloads differ in more than the value category
  of what they return takes the object expression it is called on as an `Operand`, and a
  call is `Compiled`: ill-formed, or running to an outcome.
-/

namespace cmdkit

/-! ## result.hpp -/

/-- The exceptions the library can raise. `bad_result_access` is the class of
result.hpp:19-24; `bad_variant_access` is what `std::get` throws when the variant
holds the other alternative; `terminate` stands for an exception leaving a
`noexcept` function; `runtime_error` is the `std::runtime_error` of
terminal.hpp:23 and 42; `bad_function_call` is what calling an empty
`std::function` throws. -/
inductive Exn where
  | bad_result_access (msg : String)
  | bad_variant_access
  | terminate
  | runtime_error (msg : String)
  | bad_function_call
  deriving DecidableEq, Repr

deriving instance DecidableEq for Except

/-- The class `Result<T, E>` (result.hpp:26-36): the two data members `ok_flag`
and `data`, the latter a `std::variant<T, E>`. -/
structure Result (T E : Type) where
  ok_flag : Bool
  data : T ⊕ E
  deriving DecidableEq, Repr

/-- A callable taking an `α` and returning a `β`, closing over external state `σ`. -/
abbrev Callable (σ α β : Type) := α → σ → Except Exn β × σ

/-- A callable without side effects that never throws. -/
def pure_fn {σ α β : Type} (g : α → β) : Callable σ α β :=
  fun a s => (.ok (g a), s)

/-- Instrumentation: the callable `f` with an invocation counter added to the
external state; every invocation increments the counter, then runs `f`. -/
def counted {σ α β : Type} (f : Callable σ α β) : Callable (σ × Nat) α β :=
  fun a st => ((f a st.1).1, ((f a st.1).2, st.2 + 1))

/-- Instrumentation for a pair of callables sharing the state `σ`: `f` with two
counters added to the state, its invocations counted by the first. -/
def count_first {σ α β : Type} (f : Callable σ α β) : Callable (σ × Nat × Nat) α β :=
  fun a st => ((f a st.1).1, ((f a st.1).2, st.2.1 + 1, st.2.2))

/-- Instrumentation for a pair of callables sharing the state `σ`: `f` with two
counters added to the state, its invocations counted by the second. -/
def count_second {σ α β : Type} (f : Callable σ α β) : Callable (σ × Nat × Nat) α β :=
  fun a st => ((f a st.1).1, ((f a st.1).2, st.2.1, st.2.2 + 1))

/-- Embeds `std::get<T>(data)`: the `T` alternative, or `bad_variant_access`. -/
def std_get_T {T E : Type} (data : T ⊕ E) : Except Exn T :=
  match data with
  | .inl v => .ok v
  | .inr _ => .error .bad_variant_access

/-- Embeds `std::get<E>(data)`: the `E` alternative, or `bad_variant_access`. -/
def std_get_E {T E : Type} (data : T ⊕ E) : Except Exn E :=
  match data with
  | .inl _ => .error .bad_variant_access
  | .inr e => .ok e

/-- The value category of an expression. -/
inductive Category where
  | lvalue
  | xvalue
  | prvalue
  deriving DecidableEq, Repr

/-- What overload resolution and reference binding see of an expression whose type is
one object type up to `const`: whether the type is const-qualified, and the value
category. -/
structure Operand where
  is_const : Bool
  category : Category
  deriving DecidableEq, Repr

/-- The ref-qualified forms a member function of `Result` is overloaded in: `&`,
`const&` and `&&`. -/
inductive Qualifier where
  | lref
  | const_lref
  | rref
  deriving DecidableEq, Repr

/-- The declared return type of an overload over a value type `T`: `T&`, `const T&`
or `T`. -/
inductive Returns where
  | ref
  | const_ref
  | value
  deriving DecidableEq, Repr

/-- A call as a program writes it: ill-formed, so that the program making the call does
not compile, or well-formed and giving `x` when it runs. -/
inductive Compiled (α : Type) where
  | ill_formed
  | runs (x : α)
  deriving DecidableEq, Repr

/-- Overload resolution on the object expression among the overloads `&`, `const&` and
`&&` of one member function, their parameter lists accepting the same arguments: a const
object binds to `const&` only, a non-const lvalue binds to `&` rather than `const&`, a
non-const rvalue to `&&` rather than `const&`. -/
def select_overload (receiver : Operand) : Qualifier :=
  if receiver.is_const then .const_lref
  else
    match receiver.category with
    | .lvalue => .lref
    | .xvalue => .rref
    | .prvalue => .rref

/-- The expression `*this` in the body of an overload: an lvalue, const in the `const&`
overload. -/
def this_object (q : Qualifier) : Operand :=
  { is_const := decide (q = .const_lref), category := .lvalue }

/-- The expression `std::move(e)`: an xvalue of the type of `e`. -/
def std_move (e : Operand) : Operand :=
  { is_const := e.is_const, category := .xvalue }

/-- The type and value category of `c ? a : b` for two operands of one object type up to
`const`: two glvalues of one category give a glvalue of that category, const when one of
them is; any other pair gives a prvalue. -/
def conditional (a b : Operand) : Operand :=
  if a.category = b.category ∧ a.category ≠ .prvalue then
    { is_const := a.is_const || b.is_const, category := a.category }
  else
    { is_const := a.is_const || b.is_const, category := .prvalue }

/-- Whether `return e;` is well-formed in a function of the declared return type: `T&`
binds to a non-const lvalue only, `const T&` binds to every operand, and a `T` is
initialised from every operand. -/
def returns_from (ret : Returns) (e : Operand) : Bool :=
  match ret with
  | .ref => decide (e.category = .lvalue) && !e.is_const
  | .const_ref => true
  | .value => true

/-- One overload of `unwrap_or` or `unwrap_err_or` as declared: its parameter
`default_val` as an expression of the body, whether the body wraps the inner call in
`std::move`, and the declared return type. -/
structure Overload where
  default_val : Operand
  moves : Bool
  returns : Returns
  deriving DecidableEq, Repr

namespace Result

variable {T E U F R σ : Type}

/-- Embeds `Result::ok` (result.hpp:45-46) through the private constructors of lines 38-39:
`data(val), ok_flag(true)`. -/
def ok (val : T) : Result T E := { ok_flag := true, data := .inl val }

/-- Embeds `Result::err` (result.hpp:48-49) through the private constructors of lines 41-42:
`data(val), ok_flag(false)`. -/
def err (val : E) : Result T E := { ok_flag := false, data := .inr val }

/-- Embeds `is_ok` (result.hpp:59). -/
def is_ok (r : Result T E) : Bool := r.ok_flag

/-- Embeds `is_err` (result.hpp:60). -/
def is_err (r : Result T E) : Bool := !r.ok_flag

/-- The class invariant the private constructors establish and assignment keeps:
the flag says which alternative the variant holds. -/
def Valid (r : Result T E) : Prop := r.ok_flag = r.data.isLeft

instance (r : Result T E) : Decidable r.Valid := by
  unfold Valid; infer_instance

/-- Embeds `unwrap` (result.hpp:64-66; the three overloads differ in value category only). -/
def unwrap (r : Result T E) : Except Exn T :=
  if r.is_ok then std_get_T r.data
  else .error (.bad_result_access "unwrap called on an error Result")

/-- Embeds `unwrap_err` (result.hpp:68-70). -/
def unwrap_err (r : Result T E) : Except Exn E :=
  if r.is_err then std_get_E r.data
  else .error (.bad_result_access "unwrap_err called on an okay Result")

/-- The type of a call of `unwrap()` or `unwrap_err()` by the overload it selects
(result.hpp:64-66, 68-70): `T&`, `const T&` or `T`. -/
def unwrap_call (q : Qualifier) : Operand :=
  match q with
  | .lref => { is_const := false, category := .lvalue }
  | .const_lref => { is_const := true, category := .lvalue }
  | .rref => { is_const := false, category := .prvalue }

/-- The three overloads of `unwrap_or` as declared:
`T& unwrap_or(const T& default_val) &` (result.hpp:73),
`const T& unwrap_or(const T& default_val) const&` (result.hpp:74) and
`T unwrap_or(T default_val) &&` (result.hpp:75), the last with `std::move(unwrap())`. -/
def unwrap_or_overload (q : Qualifier) : Overload :=
  match q with
  | .lref =>
    { default_val := { is_const := true, category := .lvalue }, moves := false,
      returns := .ref }
  | .const_lref =>
    { default_val := { is_const := true, category := .lvalue }, moves := false,
      returns := .const_ref }
  | .rref =>
    { default_val := { is_const := false, category := .lvalue }, moves := true,
      returns := .value }

/-- The three overloads of `unwrap_err_or` as declared:
`E& unwrap_err_or(const E& default_val) &` (result.hpp:77),
`const E& unwrap_err_or(const E& default_val) const&` (result.hpp:78) and
`E unwrap_err_or(E default_val) &&` (result.hpp:79), the last with
`std::move(unwrap_err())`. -/
def unwrap_err_or_overload (q : Qualifier) : Overload :=
  match q with
  | .lref =>
    { default_val := { is_const := true, category := .lvalue }, moves := false,
      returns := .ref }
  | .const_lref =>
    { default_val := { is_const := true, category := .lvalue }, moves := false,
      returns := .const_ref }
  | .rref =>
    { default_val := { is_const := false, category := .lvalue }, moves := true,
      returns := .value }

/-- Whether the body `return is_ok() ? unwrap() : default_val;` (with `std::move` around
the inner call where the overload has it) of the overload `o` qualified `q` is
well-formed: the inner call is made on `*this`, and the conditional expression has to
initialise the declared return type. -/
def body_well_formed (q : Qualifier) (o : Overload) : Bool :=
  returns_from o.returns
    (conditional
      (if o.moves then std_move (unwrap_call (select_overload (this_object q)))
       else unwrap_call (select_overload (this_object q)))
      o.default_val)

/-- Embeds `unwrap_or` (result.hpp:73-75) called on the object expression `receiver`, for
a value type `T` that is not itself const-qualified: the call selects one of the three
overloads and is ill-formed when the body of that overload is; otherwise it runs
`is_ok() ? unwrap() : default_val`. The overloads are declared `noexcept`: an exception
from the inner `unwrap()` would terminate the program. -/
def unwrap_or (r : Result T E) (receiver : Operand) (default_val : T) :
    Compiled (Except Exn T) :=
  if body_well_formed (select_overload receiver)
      (unwrap_or_overload (select_overload receiver)) then
    .runs
      (if r.is_ok then
        match r.unwrap with
        | .ok v => .ok v
        | .error _ => .error .terminate
      else .ok default_val)
  else .ill_formed

/-- Embeds `unwrap_err_or` (result.hpp:77-79) called on the object expression `receiver`,
for an error type `E` that is not itself const-qualified; declared `noexcept`. -/
def unwrap_err_or (r : Result T E) (receiver : Operand) (default_val : E) :
    Compiled (Except Exn E) :=
  if body_well_formed (select_overload receiver)
      (unwrap_err_or_overload (select_overload receiver)) then
    .runs
      (if r.is_err then
        match r.unwrap_err with
        | .ok e => .ok e
        | .error _ => .error .terminate
      else .ok default_val)
  else .ill_formed

/-- Embeds `map` (result.hpp:82-104): `ok(f(unwrap()))` when `is_ok()`, else
`err(unwrap_err())`. -/
def map (r : Result T E) (f : Callable σ T U) (s : σ) : Except Exn (Result U E) × σ :=
  if r.is_ok then
    match r.unwrap with
    | .ok v =>
      match f v s with
      | (.ok u, s') => (.ok (Result.ok u), s')
      | (.error x, s') => (.error x, s')
    | .error x => (.error x, s)
  else
    match r.unwrap_err with
    | .ok e => (.ok (Result.err e), s)
    | .error x => (.error x, s)

/-- Embeds `map_err` (result.hpp:107-129): `err(f(unwrap_err()))` when `is_err()`, else
`ok(unwrap())`. -/
def map_err (r : Result T E) (f : Callable σ E F) (s : σ) : Except Exn (Result T F) × σ :=
  if r.is_err then
    match r.unwrap_err with
    | .ok e =>
      match f e s with
      | (.ok u, s') => (.ok (Result.err u), s')
      | (.error x, s') => (.error x, s')
    | .error x => (.error x, s)
  else
    match r.unwrap with
    | .ok v => (.ok (Result.ok v), s)
    | .error x => (.error x, s)

/-- Embeds `and_then` (result.hpp:132-156): `invoke(f, unwrap())` when `is_ok()`, else
`Ret::err(unwrap_err())`. -/
def and_then (r : Result T E) (f : Callable σ T (Result U E)) (s : σ) :
    Except Exn (Result U E) × σ :=
  if r.is_ok then
    match r.unwrap with
    | .ok v => f v s
    | .error x => (.error x, s)
  else
    match r.unwrap_err with
    | .ok e => (.ok (Result.err e), s)
    | .error x => (.error x, s)

/-- Embeds `match` (result.hpp:159-181): `invoke(ok_func, unwrap())` when `is_ok()`, else
`invoke(err_func, unwrap_err())`. -/
def «match» (r : Result T E) (ok_func : Callable σ T R) (err_func : Callable σ E R) (s : σ) :
    Except Exn R × σ :=
  if r.is_ok then
    match r.unwrap with
    | .ok v => ok_func v s
    | .error x => (.error x, s)
  else
    match r.unwrap_err with
    | .ok e => err_func e s
    | .error x => (.error x, s)

end Result

/-! ## command.hpp -/

/-- The model of `std::string`. -/
abbrev Str := List Char

/-- What can go wrong while reading the containers: `out_of_bounds` is an
`operator[]` read outside the container (undefined behaviour in C++),
`out_of_range` the exception of `std::string::substr`, `out_of_fuel` the loop
model running out of iterations. -/
inductive Fault where
  | out_of_bounds
  | out_of_range
  | out_of_fuel
  deriving DecidableEq, Repr

/-- Embeds `std::vector<std::string>::operator[]`: defined for `idx < size()` only. -/
def vec_at (args : List Str) (idx : Nat) : Except Fault Str :=
  match args[idx]? with
  | some a => .ok a
  | none => .error .out_of_bounds

/-- Embeds `std::string::operator[]`: the character at `pos` for `pos < size()`, the null
character for `pos == size()`, undefined beyond. -/
def str_at (s : Str) (pos : Nat) : Except Fault Char :=
  match s[pos]? with
  | some c => .ok c
  | none => if pos = s.length then .ok (Char.ofNat 0) else .error .out_of_bounds

/-- Embeds `std::string::substr(pos)`: the suffix from `pos`, `std::out_of_range` when
`pos > size()`. -/
def substr (s : Str) (pos : Nat) : Except Fault Str :=
  if pos ≤ s.length then .ok (s.drop pos) else .error .out_of_range

/-- The short-circuit `a && b` of C++ over operands that may fault: `b` is
evaluated only when `a` is true. -/
def and_also (a b : Except Fault Bool) : Except Fault Bool :=
  match a with
  | .ok true => b
  | .ok false => .ok false
  | .error x => .error x

/-- The short-circuit `a || b` of C++ over operands that may fault: `b` is evaluated
only when `a` is false. -/
def or_else (a b : Except Fault Bool) : Except Fault Bool :=
  match a with
  | .ok true => .ok true
  | .ok false => b
  | .error x => .error x

/-- The comparison `s[pos] == c`. -/
def char_is (s : Str) (pos : Nat) (c : Char) : Except Fault Bool :=
  match str_at s pos with
  | .ok d => .ok (d == c)
  | .error x => .error x

/-- Embeds `options.find(key)` on the `std::unordered_map`, kept as an association list
with one entry per key. -/
def umap_find (m : List (Str × Str)) (key : Str) : Option Str :=
  match m with
  | [] => none
  | (k, v) :: rest => if k = key then some v else umap_find rest key

/-- Embeds `options[key] = value` on the `std::unordered_map`: overwrite the entry of
`key`, or add one. -/
def umap_assign (m : List (Str × Str)) (key value : Str) : List (Str × Str) :=
  match m with
  | [] => [(key, value)]
  | (k, v) :: rest =>
    if k = key then (k, value) :: rest else (k, v) :: umap_assign rest key value

/-- Embeds `flags.insert(key)` on the `std::unordered_set`: no effect when present. -/
def uset_insert (s : List Str) (key : Str) : List Str :=
  if key ∈ s then s else s ++ [key]

/-- Embeds `flags.count(name)` on the `std::unordered_set`. -/
def uset_count (s : List Str) (name : Str) : Nat :=
  if name ∈ s then 1 else 0

/-- The class `CommandArgs` (command.hpp:14-19): its three data members. -/
structure CommandArgs where
  options : List (Str × Str)
  flags : List Str
  positional : List Str
  deriving DecidableEq, Repr

/-- The state of the `for` loop of `parse`: the cursor and the bundle built so far. -/
structure LoopState where
  idx : Nat
  result : CommandArgs
  deriving DecidableEq, Repr

namespace CommandArgs

/-- The default-constructed bundle `CommandArgs result;` (command.hpp:24). -/
def empty : CommandArgs := { options := [], flags := [], positional := [] }

/-- The condition of command.hpp:29:
`args.size() > 2 && arg[0] == '-' && arg[1] == '-'`. -/
def marker_test (args : List Str) (arg : Str) : Except Fault Bool :=
  and_also (and_also (.ok (decide (args.length > 2))) (char_is arg 0 '-')) (char_is arg 1 '-')

/-- The parenthesised look-ahead of command.hpp:33:
`args[idx + 1].size() > 2 && args[idx + 1][0] == '-' && args[idx + 1][1] == '-'`. -/
def lookahead_test (args : List Str) (idx : Nat) : Except Fault Bool :=
  and_also
    (and_also
      (match vec_at args (idx + 1) with
        | .ok nxt => .ok (decide (nxt.length > 2))
        | .error x => .error x)
      (match vec_at args (idx + 1) with
        | .ok nxt => char_is nxt 0 '-'
        | .error x => .error x))
    (match vec_at args (idx + 1) with
      | .ok nxt => char_is nxt 1 '-'
      | .error x => .error x)

/-- The condition of command.hpp:33: `idx == args.size() - 1 || (look-ahead)`.
The subtraction is on `size_t`; the loop body runs with `args.size() > idx`, so it
does not wrap. -/
def flag_test (args : List Str) (idx : Nat) : Except Fault Bool :=
  or_else (.ok (decide (idx = args.length - 1))) (lookahead_test args idx)

/-- One iteration of the `for` loop of `parse` (command.hpp:26-38): the body on
`args[idx]` followed by the `++idx` of the loop header. The option branch reads
`args[++idx]`, so the cursor moves by two there. -/
def loop_body (args : List Str) (st : LoopState) : Except Fault LoopState := do
  let arg ← vec_at args st.idx
  if ← marker_test args arg then
    let key ← substr arg 2
    if ← flag_test args st.idx then
      pure { idx := st.idx + 1,
             result := { st.result with flags := uset_insert st.result.flags key } }
    else
      let value ← vec_at args (st.idx + 1)
      pure { idx := st.idx + 1 + 1,
             result := { st.result with options := umap_assign st.result.options key value } }
  else
    pure { idx := st.idx + 1,
           result := { st.result with positional := st.result.positional ++ [arg] } }

/-- The `for` loop of `parse` run for at most `n` iterations: it stops as soon as
the guard `idx < args.size()` fails. -/
def run_loop (args : List Str) : Nat → LoopState → Except Fault LoopState
  | 0, st => .ok st
  | n + 1, st =>
    if st.idx < args.length then
      match loop_body args st with
      | .ok st' => run_loop args n st'
      | .error x => .error x
    else .ok st

/-- Embeds `CommandArgs::parse(const std::vector<std::string>&)` (command.hpp:22-41): the
loop from `idx = 0` on the empty bundle; `args.size()` iterations are allowed, and
the bundle is returned once the guard has failed. -/
def parse (args : List Str) : Except Fault CommandArgs :=
  match run_loop args args.length { idx := 0, result := empty } with
  | .ok st => if st.idx < args.length then .error .out_of_fuel else .ok st.result
  | .error x => .error x

/-- Embeds `get_option` (command.hpp:60-64). -/
def get_option (c : CommandArgs) (key : Str) (default_val : Str) : Str :=
  match umap_find c.options key with
  | some v => v
  | none => default_val

/-- Embeds `has_flag` (command.hpp:66): `flags.count(name)` converted to `bool`. -/
def has_flag (c : CommandArgs) (name : Str) : Bool :=
  decide (uset_count c.flags name ≠ 0)

/-- Embeds `get_positional` (command.hpp:68). -/
def get_positional (c : CommandArgs) : List Str := c.positional

/-- The loop of `parse` visits the state `st`: some number of iterations from the
initial state ends in `st`. -/
def Visits (args : List Str) (st : LoopState) : Prop :=
  ∃ n, run_loop args n { idx := 0, result := empty } = .ok st

/-- The look-ahead condition of command.hpp:33 as a proposition on the token list:
there is a next token, it is longer than two characters and starts with `--`. -/
def NextQualifies (args : List Str) (idx : Nat) : Prop :=
  ∃ nxt, args[idx + 1]? = some nxt ∧ nxt.length > 2 ∧ ['-', '-'] <+: nxt

/-- The bundle `r'` holds every flag of `r` and a value for every option key of `r`. -/
def Grows (r r' : CommandArgs) : Prop :=
  (∀ k, k ∈ r.flags → k ∈ r'.flags) ∧
  (∀ k, (umap_find r.options k).isSome = true → (umap_find r'.options k).isSome = true)

/-- No option value of the bundle is a token the look-ahead of command.hpp:33
accepts (longer than two characters and starting with `--`). -/
def ValuesPlain (r : CommandArgs) : Prop :=
  ∀ k v, umap_find r.options k = some v → ¬ (v.length > 2 ∧ ['-', '-'] <+: v)

end CommandArgs

/-! ### The string overload of `parse` -/

/-- Embeds `std::isspace` in the default "C" locale: space, `\t`, `\n`, `\v`, `\f`
and `\r`; no other character is whitespace. -/
def isspace (c : Char) : Bool :=
  c == ' ' || c == Char.ofNat 9 || c == Char.ofNat 10 || c == Char.ofNat 11 ||
    c == Char.ofNat 12 || c == Char.ofNat 13

/-- Embeds `std::string::substr(pos, len)`: at most `len` characters from `pos`,
`std::out_of_range` when `pos > size()`. -/
def substr_len (s : Str) (pos len : Nat) : Except Fault Str :=
  if pos ≤ s.length then .ok ((s.drop pos).take len) else .error .out_of_range

/-- The inner loops of command.hpp:49 and 53,
`while (pos < args_str.size() && p(args_str[pos])) pos++;`, with `p` the test on the
character: the position the loop stops at. -/
def scan_while (p : Char → Bool) (s : Str) : Nat → Nat → Except Fault Nat
  | 0, _ => .error .out_of_fuel
  | fuel + 1, pos =>
    match and_also (.ok (decide (pos < s.length)))
        (match str_at s pos with
          | .ok c => .ok (p c)
          | .error x => .error x) with
    | .ok true => scan_while p s fuel (pos + 1)
    | .ok false => .ok pos
    | .error x => .error x

/-- The outer loop of command.hpp:47-55: skip whitespace, `break` at the end of the
string, else scan a token and append it to `vec`. -/
def tokenize_loop (s : Str) : Nat → Nat → List Str → Except Fault (List Str)
  | 0, _, _ => .error .out_of_fuel
  | fuel + 1, pos, vec =>
    if pos < s.length then
      match scan_while isspace s (s.length + 1) pos with
      | .ok pos1 =>
        if pos1 ≥ s.length then .ok vec
        else
          match scan_while (fun c => !isspace c) s (s.length + 1) pos1 with
          | .ok pos2 =>
            match substr_len s pos1 (pos2 - pos1) with
            | .ok tok => tokenize_loop s fuel pos2 (vec ++ [tok])
            | .error x => .error x
          | .error x => .error x
      | .error x => .error x
    else .ok vec

/-- The token vector `vec` of command.hpp:45-55: the outer loop from `pos = 0` on an
empty vector. Every iteration but a last one that breaks moves `pos` forward, so
`size() + 1` iterations are allowed. -/
def tokenize (s : Str) : Except Fault (List Str) :=
  tokenize_loop s (s.length + 1) 0 []

/-- The maximal non-whitespace substrings of a string, left to right: the pieces
between its whitespace characters, the empty pieces left out. -/
def maximal_runs (s : Str) : List Str :=
  (s.splitOnP isspace).filter (fun t => !t.isEmpty)

/-- The tokens joined with single spaces, `join(tokens, " ")`. -/
def join_spaces : List Str → Str
  | [] => []
  | [t] => t
  | t :: u :: rest => t ++ ' ' :: join_spaces (u :: rest)

namespace CommandArgs

/-- Embeds `CommandArgs::parse(const std::string&)` (command.hpp:43-58): tokenize,
then parse the vector. -/
def parse_string (args_str : Str) : Except Fault CommandArgs :=
  match tokenize args_str with
  | .ok vec => parse vec
  | .error x => .error x

/-- Embeds `CommandArgs::operator[]` (command.hpp:71-72): `positional[idx]`. -/
def at_index (c : CommandArgs) (idx : Nat) : Except Fault Str :=
  vec_at c.positional idx

end CommandArgs

/-! ### `Command` (command.hpp:75-99) and terminal.hpp -/

/-- The type `void*`, an address. -/
abbrev VoidPtr := Nat

/-- The class `Command`: its three data members. `Handler` is a `std::function`,
which may be empty (`Command() = default`): `none`. -/
structure Command (σ : Type) where
  name : Str
  description : Str
  handler : Option (Callable σ CommandArgs (Result VoidPtr Str))

namespace Command

variable {σ : Type}

/-- The call `handler(args)` of a `std::function`: `bad_function_call` when empty. -/
def call_handler (h : Option (Callable σ CommandArgs (Result VoidPtr Str)))
    (args : CommandArgs) (s : σ) : Except Exn (Result VoidPtr Str) × σ :=
  match h with
  | some f => f args s
  | none => (.error .bad_function_call, s)

/-- Embeds `Command::invoke(const CommandArgs&)` (command.hpp:85). -/
def invoke (c : Command σ) (args : CommandArgs) (s : σ) :
    Except Exn (Result VoidPtr Str) × σ :=
  call_handler c.handler args s

/-- Embeds `Command::get_name` (command.hpp:89). -/
def get_name (c : Command σ) : Str := c.name

end Command

/-- Embeds `command_table.find(key)` on the `std::map`, kept as an association list
with one entry per key. -/
def table_find {σ : Type} (m : List (Str × Command σ)) (key : Str) : Option (Command σ) :=
  match m with
  | [] => none
  | (k, c) :: rest => if k = key then some c else table_find rest key

/-- Embeds `command_table[name] = cmd` on the `std::map`: overwrite the entry of
`name`, or add one. -/
def table_assign {σ : Type} (m : List (Str × Command σ)) (name : Str) (cmd : Command σ) :
    List (Str × Command σ) :=
  match m with
  | [] => [(name, cmd)]
  | (k, c) :: rest =>
    if k = name then (k, cmd) :: rest else (k, c) :: table_assign rest name cmd

/-- The class `Terminal` (terminal.hpp:14-47): its data member. -/
structure Terminal (σ : Type) where
  command_table : List (Str × Command σ)

/-- What a dispatch leaves behind: whether it returned or threw, the external state,
and the terminal. -/
structure Dispatch (σ : Type) where
  outcome : Except Exn Unit
  state : σ
  terminal : Terminal σ

/-- A call recorded by the instrumentation of a dispatch: the handler registered
under `key` called with `bundle`, or the not-found callback. -/
inductive Call where
  | handler (key : Str) (bundle : CommandArgs)
  | fallback
  deriving DecidableEq, Repr

namespace Terminal

variable {σ : Type}

/-- Embeds `register_command(name, cmd)` (terminal.hpp:17). -/
def register_command (t : Terminal σ) (name : Str) (cmd : Command σ) : Terminal σ :=
  { command_table := table_assign t.command_table name cmd }

/-- Embeds `register_command(cmd)` (terminal.hpp:18): the key is `cmd.get_name()`. -/
def register_command_named (t : Terminal σ) (cmd : Command σ) : Terminal σ :=
  { command_table := table_assign t.command_table cmd.get_name cmd }

/-- The lambda `[]() { throw std::runtime_error("Not find command!"); }` of
terminal.hpp:23 and 42. -/
def throw_not_find : Callable σ Unit Unit :=
  fun _ s => (.error (.runtime_error "Not find command!"), s)

/-- Embeds `invoke(const CommandArgs&, Fn&&)` (terminal.hpp:26-32): look `command[0]`
up; run the found command and drop its Result, else run the callback. The member
function is `const`: the terminal it leaves is the one it was called on. -/
def invoke_args_with (t : Terminal σ) (command : CommandArgs)
    (not_find_callback : Callable σ Unit Unit) (s : σ) : Except Fault (Dispatch σ) :=
  match command.at_index 0 with
  | .ok key =>
    match table_find t.command_table key with
    | some cmd =>
      .ok { outcome := (cmd.invoke command s).1.map (fun _ => ()),
            state := (cmd.invoke command s).2,
            terminal := t }
    | none =>
      .ok { outcome := (not_find_callback () s).1,
            state := (not_find_callback () s).2,
            terminal := t }
  | .error x => .error x

/-- Embeds `invoke(const CommandArgs&)` (terminal.hpp:21-24). -/
def invoke_args (t : Terminal σ) (command : CommandArgs) (s : σ) :
    Except Fault (Dispatch σ) :=
  invoke_args_with t command throw_not_find s

/-- Embeds `invoke(const std::string&, Fn&&)` (terminal.hpp:34-38). -/
def invoke_with (t : Terminal σ) (command : Str) (not_find_callback : Callable σ Unit Unit)
    (s : σ) : Except Fault (Dispatch σ) :=
  match CommandArgs.parse_string command with
  | .ok bundle => invoke_args_with t bundle not_find_callback s
  | .error x => .error x

/-- Embeds `invoke(const std::string&)` (terminal.hpp:40-43). -/
def invoke (t : Terminal σ) (command : Str) (s : σ) : Except Fault (Dispatch σ) :=
  match CommandArgs.parse_string command with
  | .ok bundle => invoke_args_with t bundle throw_not_find s
  | .error x => .error x

/-- Instrumentation: the handler `f` of the command registered under `key`, made to
append its call to a log added to the external state. -/
def logged_handler (key : Str) (f : Callable σ CommandArgs (Result VoidPtr Str)) :
    Callable (σ × List Call) CommandArgs (Result VoidPtr Str) :=
  fun a st => ((f a st.1).1, ((f a st.1).2, st.2 ++ [Call.handler key a]))

/-- Instrumentation: the not-found callback made to append its call to the log. -/
def logged_callback (f : Callable σ Unit Unit) : Callable (σ × List Call) Unit Unit :=
  fun a st => ((f a st.1).1, ((f a st.1).2, st.2 ++ [Call.fallback]))

/-- Instrumentation: a table with every handler logged under its key. -/
def logged_table (m : List (Str × Command σ)) : List (Str × Command (σ × List Call)) :=
  m.map (fun e =>
    (e.1, { name := e.2.name, description := e.2.description,
            handler := e.2.handler.map (logged_handler e.1) }))

/-- Instrumentation: a terminal with every handler logged under its key. -/
def logged (t : Terminal σ) : Terminal (σ × List Call) :=
  { command_table := logged_table t.command_table }

/-- The command `log_str` of use_cmdkit.cpp:14-21, its output left out: the handler
returns `R::ok(nullptr)`. -/
def sample_log_str : Command Unit :=
  { name := "log_str".toList, description := [],
    handler := some (fun _ s => (.ok (Result.ok 0), s)) }

/-- A terminal with `log_str` registered, as in use_cmdkit.cpp:22. -/
def sample_terminal : Terminal Unit :=
  register_command_named { command_table := [] } sample_log_str

/-- A not-found callback that returns, as the `func` of use_terminal.cpp:27. -/
def sample_fallback : Callable Unit Unit Unit := fun _ s => (.ok (), s)

/-- A terminal whose only command, `x`, has a handler that throws
`std::runtime_error("Not find command!")`. -/
def throwing_terminal : Terminal Unit :=
  register_command_named { command_table := [] }
    { name := "x".toList, description := [],
      handler := some (fun _ s => (.error (.runtime_error "Not find command!"), s)) }

/-- The class invariant of `std::map`: no two entries of the table have the same
key. -/
def KeysUnique (t : Terminal σ) : Prop := (t.command_table.map Prod.fst).Nodup

/-- A command named `x` over two counters: its handler adds one to the first counter
and returns `R::ok(nullptr)`. -/
def first_x : Command (Unit × Nat × Nat) :=
  { name := "x".toList, description := [],
    handler := some (count_first (fun _ s => (.ok (Result.ok 0), s))) }

/-- A command named `x` over two counters: its handler adds one to the second
counter and returns `R::ok(nullptr)`. -/
def second_x : Command (Unit × Nat × Nat) :=
  { name := "x".toList, description := [],
    handler := some (count_second (fun _ s => (.ok (Result.ok 0), s))) }

end Terminal

namespace Result

variable {T E U W σ : Type}

/-- The second call of a chain `a.and_then(f).and_then(g)`: made on the Result the
first call returned, and not made when the first call threw. -/
def and_then_next (o : Except Exn (Result T E) × σ) (g : Callable σ T (Result U E)) :
    Except Exn (Result U E) × σ :=
  match o with
  | (.ok r, s) => r.and_then g s
  | (.error x, s) => (.error x, s)

/-- The lambda `x -> f(x).and_then(g)`. -/
def and_then_after (f : Callable σ T (Result U E)) (g : Callable σ U (Result W E)) :
    Callable σ T (Result W E) :=
  fun x s => and_then_next (f x s) g

end Result

namespace CommandArgs

/-- The loop invariant of `parse` on `positional`: it is a sublist of the tokens
before the cursor, and with more than two tokens none of its elements starts with
`--`. -/
def PositionalInv (args : List Str) (st : LoopState) : Prop :=
  st.result.positional.Sublist (args.take st.idx) ∧
  (args.length > 2 → ∀ t ∈ st.result.positional, ¬ ['-', '-'] <+: t)

end CommandArgs

end cmdkit

/-! ## Properties of `Result` -/

namespace cmdkit

namespace Result

variable {T E U F R σ : Type}

theorem valid_ok (v : T) : (Result.ok v : Result T E).Valid := rfl

theorem valid_err (e : E) : (Result.err e : Result T E).Valid := rfl

/-- A value satisfying the class invariant is `ok v` or `err e`. -/
theorem valid_cases (r : Result T E) (hr : r.Valid) :
    (∃ v, r = Result.ok v) ∨ (∃ e, r = Result.err e) := by
  rcases r with ⟨flag, v | e⟩
  · left; refine ⟨v, ?_⟩
    simp only [Valid, Sum.isLeft_inl] at hr
    simp [Result.ok, hr]
  · right; refine ⟨e, ?_⟩
    simp only [Valid, Sum.isLeft_inr] at hr
    simp [Result.err, hr]

/-- C1: for every success value `v`, `ok(v)` has `is_ok()` true, `is_err()` false and
`unwrap()` returns `v`; for every error value `e`, `err(e)` has `is_err()` true,
`is_ok()` false and `unwrap_err()` returns `e`. -/
theorem ok_err_inspect (v : T) (e : E) :
    (Result.ok v : Result T E).is_ok = true ∧
    (Result.ok v : Result T E).is_err = false ∧
    (Result.ok v : Result T E).unwrap = .ok v ∧
    (Result.err e : Result T E).is_err = true ∧
    (Result.err e : Result T E).is_ok = false ∧
    (Result.err e : Result T E).unwrap_err = .ok e := by
  refine ⟨rfl, rfl, rfl, rfl, rfl, rfl⟩

/-- C2: `unwrap()` throws `bad_result_access` exactly when the Result is an error,
`unwrap_err()` throws it exactly when the Result is a success, and a call that
throws returns no value; on a Result built by `ok` or `err` the other variant's
accessor returns the held value, so these are the only failures. -/
theorem unwrap_throws_iff (r : Result T E) :
    ((∃ msg, r.unwrap = .error (.bad_result_access msg)) ↔ r.is_err = true) ∧
    ((∃ msg, r.unwrap_err = .error (.bad_result_access msg)) ↔ r.is_ok = true) ∧
    (r.is_err = true → ∀ v, r.unwrap ≠ .ok v) ∧
    (r.is_ok = true → ∀ e, r.unwrap_err ≠ .ok e) ∧
    (r.Valid → ((∃ x, r.unwrap = .error x) ↔ r.is_err = true) ∧
      ((∃ x, r.unwrap_err = .error x) ↔ r.is_ok = true)) := by
  rcases r with ⟨flag, v | e⟩ <;> cases flag <;>
    simp [unwrap, unwrap_err, is_ok, is_err, std_get_T, std_get_E, Valid]

/-- The failing access of C2 at `err("boom")` and at `ok(7)`. -/
theorem unwrap_throws_iff_witness :
    (∃ msg, (Result.err "boom" : Result Nat String).unwrap = .error (.bad_result_access msg)) ∧
    (Result.err "boom" : Result Nat String).unwrap ≠ .ok 0 ∧
    (∃ msg, (Result.ok 7 : Result Nat String).unwrap_err = .error (.bad_result_access msg)) ∧
    (Result.ok 7 : Result Nat String).unwrap_err ≠ .ok "" :=
  ⟨(unwrap_throws_iff (Result.err "boom")).1.mpr rfl,
   (unwrap_throws_iff (Result.err "boom")).2.2.1 rfl 0,
   (unwrap_throws_iff (Result.ok 7)).2.1.mpr rfl,
   (unwrap_throws_iff (Result.ok 7)).2.2.2.1 rfl ""⟩

/-- C3: `ok(v).and_then(f)` is the outcome of `f(v)`; `err(e).and_then(f)` is
`err(e)` with the external state untouched, and an invocation counter put on `f`
moves by one in the first case and stays where it was in the second. -/
theorem and_then_spec (v : T) (e : E) (f : Callable σ T (Result U E)) (s : σ) (n : Nat) :
    (Result.ok v : Result T E).and_then f s = f v s ∧
    (Result.err e : Result T E).and_then f s = (.ok (Result.err e), s) ∧
    (Result.ok v : Result T E).and_then (counted f) (s, n) = ((f v s).1, ((f v s).2, n + 1)) ∧
    (Result.err e : Result T E).and_then (counted f) (s, n) = (.ok (Result.err e), (s, n)) := by
  refine ⟨rfl, rfl, rfl, rfl⟩

/-- C4: `ok(v).map(f)` is `ok(f(v))` (and whatever `f` throws or does to its state is
what `map` throws or does); `err(e).map(f)` is `err(e)` for every `f`, which is not
run. -/
theorem map_spec (v : T) (e : E) (f : Callable σ T U) (g : T → U) (s : σ) :
    ((Result.ok v : Result T E).map f s).1 = (f v s).1.map Result.ok ∧
    ((Result.ok v : Result T E).map f s).2 = (f v s).2 ∧
    (Result.ok v : Result T E).map (pure_fn g) s = (.ok (Result.ok (g v)), s) ∧
    (Result.err e : Result T E).map f s = (.ok (Result.err e), s) := by
  refine ⟨?_, ?_, rfl, rfl⟩
  · simp only [map, is_ok, ok, unwrap, std_get_T, if_true]
    rcases f v s with ⟨_ | _, _⟩ <;> rfl
  · simp only [map, is_ok, ok, unwrap, std_get_T, if_true]
    rcases f v s with ⟨_ | _, _⟩ <;> rfl

/-- C5: `err(e).map_err(f)` is `err(f(e))` (and whatever `f` throws or does to its
state is what `map_err` throws or does); `ok(v).map_err(f)` is `ok(v)` for every
`f`, which is not run. -/
theorem map_err_spec (v : T) (e : E) (f : Callable σ E F) (g : E → F) (s : σ) :
    ((Result.err e : Result T E).map_err f s).1 = (f e s).1.map Result.err ∧
    ((Result.err e : Result T E).map_err f s).2 = (f e s).2 ∧
    (Result.err e : Result T E).map_err (pure_fn g) s = (.ok (Result.err (g e)), s) ∧
    (Result.ok v : Result T E).map_err f s = (.ok (Result.ok v), s) := by
  refine ⟨?_, ?_, rfl, rfl⟩
  · simp only [map_err, is_err, err, unwrap_err, std_get_E, Bool.not_false, if_true]
    rcases f e s with ⟨_ | _, _⟩ <;> rfl
  · simp only [map_err, is_err, err, unwrap_err, std_get_E, Bool.not_false, if_true]
    rcases f e s with ⟨_ | _, _⟩ <;> rfl

/-- C6: `ok(v).match(on_ok, on_err)` is the outcome of `on_ok(v)` and
`err(e).match(on_ok, on_err)` the outcome of `on_err(e)`; with a counter on each
function, the counter of the chosen one moves by exactly one and the other's stays
where it was. -/
theorem match_spec (v : T) (e : E) (on_ok : Callable σ T R) (on_err : Callable σ E R)
    (s : σ) (a b : Nat) :
    (Result.ok v : Result T E).«match» on_ok on_err s = on_ok v s ∧
    (Result.err e : Result T E).«match» on_ok on_err s = on_err e s ∧
    (Result.ok v : Result T E).«match» (count_first on_ok) (count_second on_err) (s, a, b)
      = ((on_ok v s).1, ((on_ok v s).2, a + 1, b)) ∧
    (Result.err e : Result T E).«match» (count_first on_ok) (count_second on_err) (s, a, b)
      = ((on_err e s).1, ((on_err e s).2, a, b + 1)) := by
  refine ⟨rfl, rfl, rfl, rfl⟩

/-- C7: called on a non-const lvalue, `unwrap_or(d)` and `unwrap_err_or(d)` select the `&`
overloads of result.hpp:73 and 77, whose conditional expression is a `const` lvalue that the
declared `T&` (`E&`) cannot bind to: the call is ill-formed for every Result and every
default. Called on any other object expression (a const object, or a non-const rvalue)
`unwrap_or(d)` runs and returns `v` on `ok(v)` and `d` on an error, and `unwrap_err_or(d)`
runs and returns `e` on `err(e)` and `d` on a success. -/
theorem unwrap_or_lvalue_ill_formed (r : Result T E) (v d : T) (e d' : E) :
    r.unwrap_or { is_const := false, category := .lvalue } d = .ill_formed ∧
    r.unwrap_err_or { is_const := false, category := .lvalue } d' = .ill_formed ∧
    (∀ receiver : Operand, receiver ≠ { is_const := false, category := .lvalue } →
      (Result.ok v : Result T E).unwrap_or receiver d = .runs (.ok v) ∧
      (Result.err e : Result T E).unwrap_or receiver d = .runs (.ok d) ∧
      (Result.err e : Result T E).unwrap_err_or receiver d' = .runs (.ok e) ∧
      (Result.ok v : Result T E).unwrap_err_or receiver d' = .runs (.ok d')) := by
  refine ⟨rfl, rfl, ?_⟩
  rintro ⟨k, c⟩ h
  cases k <;> cases c <;>
    first
    | exact absurd rfl h
    | exact ⟨rfl, rfl, rfl, rfl⟩

/-- C8: chain law: for a Result `r` with `is_ok()`, `r.and_then(x -> ok(x)).unwrap()`
is `r.unwrap()`, which is a value, and the chain leaves the external state alone. -/
theorem chain_law (r : Result T E) (hr : r.Valid) (h : r.is_ok = true) (s : σ) :
    (r.and_then (pure_fn (Result.ok : T → Result T E)) s).1.bind Result.unwrap = r.unwrap ∧
    (r.and_then (pure_fn (Result.ok : T → Result T E)) s).2 = s ∧
    ∃ v, r.unwrap = .ok v := by
  rcases valid_cases r hr with ⟨v, rfl⟩ | ⟨e, rfl⟩
  · exact ⟨rfl, rfl, v, rfl⟩
  · simp [is_ok, Result.err] at h

/-- The chain law at `ok(7)`. -/
theorem chain_law_witness :
    ((Result.ok 7 : Result Nat String).and_then
        (pure_fn (Result.ok : Nat → Result Nat String)) ()).1.bind Result.unwrap
      = (Result.ok 7 : Result Nat String).unwrap ∧
    (Result.ok 7 : Result Nat String).unwrap = .ok 7 :=
  ⟨(chain_law (Result.ok 7) (valid_ok 7) rfl ()).1, rfl⟩

end Result

end cmdkit

/-! ## Properties of `CommandArgs::parse` -/

namespace cmdkit

namespace CommandArgs

/-- Two leading characters are `--` exactly when both are the character `'-'`. -/
theorem dash_prefix_iff (a b : Char) (t : List Char) :
    ['-', '-'] <+: a :: b :: t ↔ a = '-' ∧ b = '-' := by
  rw [List.cons_prefix_cons, List.cons_prefix_cons]
  constructor
  · rintro ⟨h1, h2, _⟩; exact ⟨h1.symm, h2.symm⟩
  · rintro ⟨h1, h2⟩; exact ⟨h1.symm, h2.symm, List.nil_prefix⟩

/-- Two leading characters are `--` exactly when both comparisons with `'-'` hold. -/
theorem dash_prefix_cons (a b : Char) (t : List Char) :
    decide (['-', '-'] <+: a :: b :: t) = ((a == '-') && (b == '-')) := by
  have h : decide (['-', '-'] <+: a :: b :: t) = decide (a = '-' ∧ b = '-') :=
    decide_eq_decide.mpr (dash_prefix_iff a b t)
  rw [h]
  by_cases ha : a = '-' <;> by_cases hb : b = '-' <;> simp [ha, hb]

/-- The two character comparisons `s[0] == '-' && s[1] == '-'` never fault, and hold
exactly when `s` starts with `--`. -/
theorem dash_tests (s : Str) :
    and_also (char_is s 0 '-') (char_is s 1 '-') = .ok (decide (['-', '-'] <+: s)) := by
  rcases s with _ | ⟨a, _ | ⟨b, t⟩⟩
  · simp [and_also, char_is, str_at]
  · cases ha : a == '-' <;> simp [and_also, char_is, str_at, ha]
  · rw [dash_prefix_cons]
    cases ha : a == '-' <;> cases hb : b == '-' <;> simp [and_also, char_is, str_at, ha, hb]

/-- The short-circuit conjunction associates. -/
theorem and_also_assoc (a b c : Except Fault Bool) :
    and_also (and_also a b) c = and_also a (and_also b c) := by
  rcases a with _ | _ | _ <;> rfl

/-- A conjunction whose operands are both values is a value. -/
theorem and_also_ok (x y : Bool) : and_also (.ok x) (.ok y) = .ok (x && y) := by
  cases x <;> rfl

/-- The test of command.hpp:29 never faults: it holds exactly when there are more
than two tokens and the token starts with `--`. -/
theorem marker_test_eq (args : List Str) (arg : Str) :
    marker_test args arg = .ok (decide (args.length > 2) && decide (['-', '-'] <+: arg)) := by
  unfold marker_test
  rw [and_also_assoc, dash_tests, and_also_ok]

/-- The look-ahead of command.hpp:33 does not fault when there is a next token: it
holds exactly when that token is longer than two characters and starts with `--`. -/
theorem lookahead_test_eq (args : List Str) (idx : Nat) (nxt : Str)
    (hn : args[idx + 1]? = some nxt) :
    lookahead_test args idx = .ok (decide (nxt.length > 2) && decide (['-', '-'] <+: nxt)) := by
  unfold lookahead_test
  simp only [vec_at, hn]
  rw [and_also_assoc, dash_tests, and_also_ok]

/-- The test of command.hpp:33 does not fault inside the loop: it holds exactly when
the token is the last one or the next token qualifies. -/
theorem flag_test_eq (args : List Str) (idx : Nat) (hi : idx < args.length) :
    ∃ b, flag_test args idx = .ok b ∧
      (b = true ↔ idx = args.length - 1 ∨ NextQualifies args idx) := by
  unfold flag_test
  by_cases hlast : idx = args.length - 1
  · refine ⟨true, ?_, by simp [hlast]⟩
    simp [or_else, hlast]
  · have hlt : idx + 1 < args.length := by omega
    obtain ⟨nxt, hn⟩ : ∃ nxt, args[idx + 1]? = some nxt :=
      ⟨args[idx + 1], List.getElem?_eq_getElem hlt⟩
    refine ⟨decide (nxt.length > 2) && decide (['-', '-'] <+: nxt), ?_, ?_⟩
    · rw [lookahead_test_eq args idx nxt hn]
      simp [or_else, hlast]
    · simp only [Bool.and_eq_true, decide_eq_true_eq, NextQualifies, hlast, false_or]
      constructor
      · rintro ⟨h1, h2⟩; exact ⟨nxt, hn, h1, h2⟩
      · rintro ⟨n', hn', h1, h2⟩
        have : n' = nxt := by rw [hn] at hn'; exact (Option.some.inj hn').symm
        subst this; exact ⟨h1, h2⟩

/-- On a token starting with `--`, `substr(2)` does not throw. -/
theorem substr_two (arg : Str) (h : ['-', '-'] <+: arg) : substr arg 2 = .ok (arg.drop 2) := by
  have hlen : 2 ≤ arg.length := by simpa using h.length_le
  simp [substr, hlen]

/-- The `else` branch of command.hpp:37: a token that is no marker is appended to
`positional` and the cursor moves by one. -/
theorem loop_body_positional (args : List Str) (st : LoopState) (arg : Str)
    (ha : args[st.idx]? = some arg) (hm : ¬ (args.length > 2 ∧ ['-', '-'] <+: arg)) :
    loop_body args st = .ok {
      idx := st.idx + 1,
      result := { st.result with positional := st.result.positional ++ [arg] } } := by
  have hf : (decide (args.length > 2) && decide (['-', '-'] <+: arg)) = false := by
    rcases h : (decide (args.length > 2) && decide (['-', '-'] <+: arg)) with _ | _
    · rfl
    · exfalso; apply hm; simpa using h
  simp [loop_body, vec_at, ha, marker_test_eq, hf, bind, Except.bind, pure, Except.pure]

/-- The flag branch of command.hpp:34: a marker in last position, or followed by a
qualifying token, inserts its key in `flags` and the cursor moves by one. -/
theorem loop_body_flag (args : List Str) (st : LoopState) (arg : Str)
    (ha : args[st.idx]? = some arg) (hlen : args.length > 2) (hp : ['-', '-'] <+: arg)
    (hf : st.idx = args.length - 1 ∨ NextQualifies args st.idx) :
    loop_body args st = .ok {
      idx := st.idx + 1,
      result := { st.result with flags := uset_insert st.result.flags (arg.drop 2) } } := by
  have hi : st.idx < args.length := by
    by_contra hc
    rw [List.getElem?_eq_none (by omega)] at ha
    cases ha
  obtain ⟨b, hb, hiff⟩ := flag_test_eq args st.idx hi
  have hbt : b = true := hiff.mpr hf
  subst hbt
  simp [loop_body, vec_at, ha, marker_test_eq, hlen, hp, substr_two, hb, bind, Except.bind,
    pure, Except.pure]

/-- The option branch of command.hpp:35: a marker followed by a token that does not
qualify takes that token as its value and the cursor moves by two. -/
theorem loop_body_option (args : List Str) (st : LoopState) (arg : Str)
    (ha : args[st.idx]? = some arg) (hlen : args.length > 2) (hp : ['-', '-'] <+: arg)
    (hf : ¬ (st.idx = args.length - 1 ∨ NextQualifies args st.idx)) :
    ∃ value, args[st.idx + 1]? = some value ∧
      loop_body args st = .ok {
        idx := st.idx + 1 + 1,
        result := { st.result with
          options := umap_assign st.result.options (arg.drop 2) value } } := by
  have hi : st.idx < args.length := by
    by_contra hc
    rw [List.getElem?_eq_none (by omega)] at ha
    cases ha
  obtain ⟨b, hb, hiff⟩ := flag_test_eq args st.idx hi
  have hbf : b = false := by
    cases b
    · rfl
    · exact absurd (hiff.mp rfl) hf
  subst hbf
  have hlt : st.idx + 1 < args.length := by
    have : st.idx ≠ args.length - 1 := fun h => hf (Or.inl h)
    omega
  refine ⟨args[st.idx + 1], List.getElem?_eq_getElem hlt, ?_⟩
  simp [loop_body, vec_at, ha, marker_test_eq, hlen, hp, substr_two, hb, bind, Except.bind,
    pure, Except.pure, List.getElem?_eq_getElem hlt]

/-- What `options.find` sees after `options[key] = value`. -/
theorem umap_find_assign (m : List (Str × Str)) (key value k : Str) :
    umap_find (umap_assign m key value) k = if key = k then some value else umap_find m k := by
  induction m with
  | nil => simp [umap_assign, umap_find]
  | cons p rest ih =>
    rcases p with ⟨k0, v0⟩
    by_cases h0 : k0 = key
    · subst h0
      by_cases h1 : k0 = k <;> simp [umap_assign, umap_find, h1]
    · by_cases h1 : k0 = k
      · subst h1
        have : ¬ key = k0 := fun h => h0 h.symm
        simp [umap_assign, umap_find, h0, this]
      · simp [umap_assign, umap_find, h0, h1, ih]

/-- Membership after `flags.insert(key)`. -/
theorem mem_uset_insert (s : List Str) (key x : Str) :
    x ∈ uset_insert s key ↔ x ∈ s ∨ x = key := by
  unfold uset_insert
  by_cases h : key ∈ s
  · simp only [h, if_true]
    constructor
    · exact Or.inl
    · rintro (h1 | h1)
      · exact h1
      · rw [h1]; exact h
  · simp [h]

theorem grows_refl (r : CommandArgs) : Grows r r := ⟨fun _ h => h, fun _ h => h⟩

theorem grows_trans {a b c : CommandArgs} (h1 : Grows a b) (h2 : Grows b c) : Grows a c :=
  ⟨fun k h => h2.1 k (h1.1 k h), fun k h => h2.2 k (h1.2 k h)⟩

/-- One iteration inside the loop never faults, moves the cursor forward without
passing the end, and loses neither a flag nor an option key. -/
theorem loop_body_total (args : List Str) (st : LoopState) (hi : st.idx < args.length) :
    ∃ st', loop_body args st = .ok st' ∧ st.idx < st'.idx ∧ st'.idx ≤ args.length ∧
      Grows st.result st'.result := by
  have ha : args[st.idx]? = some args[st.idx] := List.getElem?_eq_getElem hi
  by_cases hm : args.length > 2 ∧ ['-', '-'] <+: args[st.idx]
  · by_cases hf : st.idx = args.length - 1 ∨ NextQualifies args st.idx
    · refine ⟨_, loop_body_flag args st _ ha hm.1 hm.2 hf, by simp, by simp; omega, ?_, ?_⟩
      · intro k hk; exact (mem_uset_insert _ _ _).mpr (Or.inl hk)
      · intro k hk; exact hk
    · obtain ⟨value, hv, hb⟩ := loop_body_option args st _ ha hm.1 hm.2 hf
      have hlt : st.idx + 1 < args.length := by
        have : st.idx ≠ args.length - 1 := fun h => hf (Or.inl h)
        omega
      refine ⟨_, hb, by simp only; omega, by simp only; omega, ?_, ?_⟩
      · intro k hk; exact hk
      · intro k hk
        simp only [umap_find_assign]
        split
        · rfl
        · exact hk
  · refine ⟨_, loop_body_positional args st _ ha hm, by simp, by simp; omega, ?_, ?_⟩
    · intro k hk; exact hk
    · intro k hk; exact hk

/-- Once the guard `idx < args.size()` fails the loop is over. -/
theorem run_loop_done (args : List Str) (n : Nat) (st : LoopState)
    (h : ¬ st.idx < args.length) : run_loop args n st = .ok st := by
  cases n <;> simp [run_loop, h]

/-- Running `m` iterations and then `n` more is running `m + n`. -/
theorem run_loop_add (args : List Str) (m n : Nat) (st st' : LoopState)
    (h : run_loop args m st = .ok st') :
    run_loop args (m + n) st = run_loop args n st' := by
  induction m generalizing st with
  | zero =>
    simp only [run_loop, Except.ok.injEq] at h
    subst h; simp
  | succ m ih =>
    rw [Nat.succ_add]
    by_cases hi : st.idx < args.length
    · simp only [run_loop, hi, if_true] at h ⊢
      rcases hb : loop_body args st with x | st1
      · rw [hb] at h; cases h
      · rw [hb] at h; simp only at h ⊢
        exact ih st1 h
    · rw [run_loop_done args _ st hi] at h
      simp only [Except.ok.injEq] at h
      subst h
      rw [run_loop_done args _ st hi, run_loop_done args _ st hi]

/-- The loop never faults: `n` iterations from a state inside the token list end in
a state inside it, either `n` tokens further or at the end, with every flag and
option key kept. -/
theorem run_loop_total (args : List Str) (n : Nat) (st : LoopState)
    (hle : st.idx ≤ args.length) :
    ∃ st', run_loop args n st = .ok st' ∧ st'.idx ≤ args.length ∧
      (st.idx + n ≤ st'.idx ∨ st'.idx = args.length) ∧ Grows st.result st'.result := by
  induction n generalizing st with
  | zero => exact ⟨st, rfl, hle, Or.inl (by simp), grows_refl _⟩
  | succ n ih =>
    by_cases hi : st.idx < args.length
    · obtain ⟨st1, hb, hlt, hle1, hg1⟩ := loop_body_total args st hi
      obtain ⟨st2, hr, hle2, hprog, hg2⟩ := ih st1 hle1
      refine ⟨st2, ?_, hle2, ?_, grows_trans hg1 hg2⟩
      · simp only [run_loop, hi, if_true, hb]; exact hr
      · rcases hprog with h | h
        · left; omega
        · right; exact h
    · refine ⟨st, run_loop_done args _ st hi, hle, Or.inr (by omega), grows_refl _⟩

/-- Totality: `parse` returns a bundle for every token list: `args.size()` iterations reach
the end of the list. -/
theorem parse_total (args : List Str) :
    ∃ st, run_loop args args.length { idx := 0, result := empty } = .ok st ∧
      st.idx = args.length ∧ parse args = .ok st.result := by
  obtain ⟨st, hr, hle, hprog, _⟩ :=
    run_loop_total args args.length { idx := 0, result := empty } (Nat.zero_le _)
  have hidx : st.idx = args.length := by
    rcases hprog with h | h
    · simp only [Nat.zero_add] at h; omega
    · exact h
  refine ⟨st, hr, hidx, ?_⟩
  simp [parse, hr, hidx]

/-- The bundle `parse` returns holds every flag and option key of every state the
loop visits. -/
theorem visits_grows (args : List Str) (st : LoopState) (hv : Visits args st) :
    st.idx ≤ args.length ∧ ∃ r, parse args = .ok r ∧ Grows st.result r := by
  obtain ⟨n, hn⟩ := hv
  obtain ⟨stf, hf, hidx, hp⟩ := parse_total args
  obtain ⟨st0, hr0, hle0, _, _⟩ :=
    run_loop_total args n { idx := 0, result := empty } (Nat.zero_le _)
  have hst : st0 = st := by rw [hr0] at hn; exact Except.ok.inj hn
  subst hst
  refine ⟨hle0, stf.result, hp, ?_⟩
  have h1 : run_loop args (n + args.length) { idx := 0, result := empty }
      = run_loop args args.length st0 := run_loop_add args n _ _ _ hr0
  have h2 : run_loop args (args.length + n) { idx := 0, result := empty }
      = run_loop args n stf := run_loop_add args _ n _ _ hf
  rw [run_loop_done args n stf (by omega)] at h2
  rw [Nat.add_comm] at h1
  rw [h1] at h2
  obtain ⟨st3, hr3, _, _, hg⟩ := run_loop_total args args.length st0 hle0
  rw [hr3] at h2
  have : st3 = stf := Except.ok.inj h2
  subst this
  exact hg

/-- A state the loop visits and leaves through `loop_body` is followed by a visited
state. -/
theorem visits_step (args : List Str) (st st' : LoopState) (hv : Visits args st)
    (hi : st.idx < args.length) (hb : loop_body args st = .ok st') : Visits args st' := by
  obtain ⟨n, hn⟩ := hv
  refine ⟨n + 1, ?_⟩
  rw [run_loop_add args n 1 _ st hn]
  simp [run_loop, hi, hb]

/-- The test `has_flag` is membership in `flags`. -/
theorem has_flag_iff (r : CommandArgs) (name : Str) :
    r.has_flag name = true ↔ name ∈ r.flags := by
  unfold has_flag uset_count
  by_cases h : name ∈ r.flags <;> simp [h]

/-- One iteration never stores a qualifying token as an option value. -/
theorem loop_body_plain (args : List Str) (st st' : LoopState) (hi : st.idx < args.length)
    (hp : ValuesPlain st.result) (hb : loop_body args st = .ok st') :
    ValuesPlain st'.result := by
  have ha : args[st.idx]? = some args[st.idx] := List.getElem?_eq_getElem hi
  by_cases hm : args.length > 2 ∧ ['-', '-'] <+: args[st.idx]
  · by_cases hf : st.idx = args.length - 1 ∨ NextQualifies args st.idx
    · rw [loop_body_flag args st _ ha hm.1 hm.2 hf] at hb
      have := Except.ok.inj hb
      subst this; exact hp
    · obtain ⟨value, hv, hb'⟩ := loop_body_option args st _ ha hm.1 hm.2 hf
      rw [hb'] at hb
      have := Except.ok.inj hb
      subst this
      intro k v hkv
      simp only [umap_find_assign] at hkv
      split at hkv
      · have hvv : value = v := Option.some.inj hkv
        subst hvv
        intro hq
        exact hf (Or.inr ⟨value, hv, hq.1, hq.2⟩)
      · exact hp k v hkv
  · rw [loop_body_positional args st _ ha hm] at hb
    have := Except.ok.inj hb
    subst this; exact hp

/-- The loop never stores a qualifying token as an option value. -/
theorem run_loop_plain (args : List Str) (n : Nat) (st st' : LoopState)
    (hp : ValuesPlain st.result) (hr : run_loop args n st = .ok st') :
    ValuesPlain st'.result := by
  induction n generalizing st with
  | zero =>
    simp only [run_loop, Except.ok.injEq] at hr
    subst hr; exact hp
  | succ n ih =>
    by_cases hi : st.idx < args.length
    · simp only [run_loop, hi, if_true] at hr
      rcases hb : loop_body args st with x | st1
      · rw [hb] at hr; cases hr
      · rw [hb] at hr
        exact ih st1 (loop_body_plain args st st1 hi hp hb) hr
    · rw [run_loop_done args _ st hi] at hr
      have := Except.ok.inj hr
      subst this; exact hp

/-- No option value of a parsed bundle is a qualifying token. -/
theorem parse_plain (args : List Str) (r : CommandArgs) (h : parse args = .ok r) :
    ValuesPlain r := by
  obtain ⟨st, hr, _, hp⟩ := parse_total args
  rw [hp] at h
  have := Except.ok.inj h
  subst this
  exact run_loop_plain args _ _ st (fun k v hkv => by simp [empty, umap_find] at hkv) hr

/-- C9: a token list of at most two tokens is returned whole as `positional`, in
input order, with no flag and no option, whatever the tokens are. -/
theorem parse_at_most_two_tokens (args : List Str) (h : args.length ≤ 2) :
    parse args = .ok { options := [], flags := [], positional := args } ∧
    (∀ r, parse args = .ok r →
      r.get_positional = args ∧ (∀ name, r.has_flag name = false) ∧
      (∀ key d, r.get_option key d = d)) := by
  have hp : parse args = .ok { options := [], flags := [], positional := args } := by
    rcases args with _ | ⟨a, _ | ⟨b, _ | ⟨c, t⟩⟩⟩
    · rfl
    · simp [parse, run_loop, loop_body, vec_at, marker_test_eq, bind, Except.bind, pure,
        Except.pure, empty]
    · simp [parse, run_loop, loop_body, vec_at, marker_test_eq, bind, Except.bind, pure,
        Except.pure, empty]
    · simp at h
  refine ⟨hp, ?_⟩
  intro r hr
  rw [hp] at hr
  have := Except.ok.inj hr
  subst this
  refine ⟨rfl, ?_, ?_⟩
  · intro name; simp [has_flag, uset_count]
  · intro key d; simp [get_option, umap_find]

/-- The two-token line `cmd --able` of C9: no flag `able`, both tokens positional. -/
theorem parse_at_most_two_tokens_witness :
    parse ["cmd".toList, "--able".toList]
      = .ok { options := [], flags := [], positional := ["cmd".toList, "--able".toList] } ∧
    has_flag { options := [], flags := [], positional := ["cmd".toList, "--able".toList] }
      "able".toList = false :=
  ⟨(parse_at_most_two_tokens ["cmd".toList, "--able".toList] (by decide)).1,
   ((parse_at_most_two_tokens ["cmd".toList, "--able".toList] (by decide)).2 _
      (parse_at_most_two_tokens ["cmd".toList, "--able".toList] (by decide)).1).2.1 _⟩

/-- The iteration on a qualifying token `nxt` reached with `key` already a flag:
it takes the marker branch, and the bundle `parse` returns has the flag `key`, no
option valued `nxt`, and the key of `nxt` as a flag or an option key. -/
theorem qualifying_token_step (args : List Str) (st1 : LoopState) (key nxt : Str)
    (hlen : args.length > 2) (hv1 : Visits args st1) (hfl1 : key ∈ st1.result.flags)
    (hn1 : args[st1.idx]? = some nxt) (hq : nxt.length > 2 ∧ ['-', '-'] <+: nxt) :
    (∃ st2, loop_body args st1 = .ok st2 ∧
      st2.result.positional = st1.result.positional ∧
      ((st2.idx = st1.idx + 1 ∧
          st2.result.flags = uset_insert st1.result.flags (nxt.drop 2) ∧
          st2.result.options = st1.result.options) ∨
       (∃ v, args[st1.idx + 1]? = some v ∧ st2.idx = st1.idx + 1 + 1 ∧
          st2.result.options = umap_assign st1.result.options (nxt.drop 2) v ∧
          st2.result.flags = st1.result.flags))) ∧
    ∃ r, parse args = .ok r ∧ r.has_flag key = true ∧
      (∀ k, umap_find r.options k ≠ some nxt) ∧
      (r.has_flag (nxt.drop 2) = true ∨ (umap_find r.options (nxt.drop 2)).isSome = true) := by
  have hi1 : st1.idx < args.length := by
    by_contra hc
    rw [List.getElem?_eq_none (by omega)] at hn1
    cases hn1
  have hfinal : ∀ st2, loop_body args st1 = .ok st2 → Grows st1.result st2.result →
      (nxt.drop 2 ∈ st2.result.flags ∨
        (umap_find st2.result.options (nxt.drop 2)).isSome = true) →
      ∃ r, parse args = .ok r ∧ r.has_flag key = true ∧
        (∀ k, umap_find r.options k ≠ some nxt) ∧
        (r.has_flag (nxt.drop 2) = true ∨
          (umap_find r.options (nxt.drop 2)).isSome = true) := by
    intro st2 hb2 hg12 hrec
    obtain ⟨_, r, hpr, hg2⟩ := visits_grows args st2 (visits_step args st1 st2 hv1 hi1 hb2)
    refine ⟨r, hpr, ?_, ?_, ?_⟩
    · exact (has_flag_iff r key).mpr (hg2.1 key (hg12.1 key hfl1))
    · intro k hk
      exact parse_plain args r hpr k nxt hk hq
    · rcases hrec with h | h
      · exact Or.inl ((has_flag_iff r _).mpr (hg2.1 _ h))
      · exact Or.inr (hg2.2 _ h)
  by_cases hf2 : st1.idx = args.length - 1 ∨ NextQualifies args st1.idx
  · have hb2 := loop_body_flag args st1 _ hn1 hlen hq.2 hf2
    refine ⟨⟨_, hb2, rfl, Or.inl ⟨rfl, rfl, rfl⟩⟩, ?_⟩
    refine hfinal _ hb2 ⟨?_, fun _ h => h⟩ (Or.inl ((mem_uset_insert _ _ _).mpr (Or.inr rfl)))
    intro k hk; exact (mem_uset_insert _ _ _).mpr (Or.inl hk)
  · obtain ⟨v, hv2, hb2⟩ := loop_body_option args st1 _ hn1 hlen hq.2 hf2
    refine ⟨⟨_, hb2, rfl, Or.inr ⟨v, hv2, rfl, rfl, rfl⟩⟩, ?_⟩
    refine hfinal _ hb2 ⟨fun _ h => h, ?_⟩ (Or.inr ?_)
    · intro k hk
      simp only [umap_find_assign]
      split
      · rfl
      · exact hk
    · simp [umap_find_assign]

/-- C10, as the claim states it, fails on `cmd --a --`: the loop reaches the marker
`--a` at index 1, its next token `--` starts with the prefix `--`, yet the look-ahead
of command.hpp:33 asks for more than two characters, so `--` is consumed as the value
of `a`: `a` is no flag and `get_option("a")` is `--`. -/
theorem marker_before_bare_dashes_counterexample :
    (["cmd".toList, "--a".toList, "--".toList] : List Str).length > 2 ∧
    Visits ["cmd".toList, "--a".toList, "--".toList]
      { idx := 1, result := { options := [], flags := [], positional := ["cmd".toList] } } ∧
    (["cmd".toList, "--a".toList, "--".toList] : List Str)[1]?
      = some ('-' :: '-' :: "a".toList) ∧
    (["cmd".toList, "--a".toList, "--".toList] : List Str)[2]? = some "--".toList ∧
    ['-', '-'] <+: "--".toList ∧
    loop_body ["cmd".toList, "--a".toList, "--".toList]
      { idx := 1, result := { options := [], flags := [], positional := ["cmd".toList] } }
      = .ok { idx := 3,
              result := { options := [("a".toList, "--".toList)], flags := [],
                          positional := ["cmd".toList] } } ∧
    parse ["cmd".toList, "--a".toList, "--".toList]
      = .ok { options := [("a".toList, "--".toList)], flags := [],
              positional := ["cmd".toList] } ∧
    has_flag { options := [("a".toList, "--".toList)], flags := [],
               positional := ["cmd".toList] } "a".toList = false ∧
    get_option { options := [("a".toList, "--".toList)], flags := [],
                 positional := ["cmd".toList] } "a".toList [] = "--".toList :=
  ⟨by decide, ⟨1, by decide⟩, by decide, by decide, ⟨[], rfl⟩, by decide, by decide,
   by decide, by decide⟩

/-- C10 (amended): in a list of more than two tokens, when the loop reaches a marker
`--key` whose next token is longer than two characters and starts with `--`, that
iteration inserts `key` in the flags, leaves the options and the positional list as
they were and moves the cursor by one, so the next iteration is on the next token;
that iteration takes the marker branch on it (it records the next token's key as a
flag or as an option and appends nothing to `positional`); and in the bundle `parse`
returns `has_flag(key)` holds, no option has the next token as its value, and the
next token's key is a flag or an option key. -/
theorem marker_before_qualifying_marker (args : List Str) (st : LoopState) (key nxt : Str)
    (hlen : args.length > 2) (hv : Visits args st)
    (hcur : args[st.idx]? = some ('-' :: '-' :: key))
    (hnxt : args[st.idx + 1]? = some nxt)
    (hq : nxt.length > 2 ∧ ['-', '-'] <+: nxt) :
    ∃ st1, loop_body args st = .ok st1 ∧ st1.idx = st.idx + 1 ∧
      st1.result.flags = uset_insert st.result.flags key ∧
      st1.result.options = st.result.options ∧
      st1.result.positional = st.result.positional ∧
      Visits args st1 ∧
      (∃ st2, loop_body args st1 = .ok st2 ∧
        st2.result.positional = st1.result.positional ∧
        ((st2.idx = st1.idx + 1 ∧
            st2.result.flags = uset_insert st1.result.flags (nxt.drop 2) ∧
            st2.result.options = st1.result.options) ∨
         (∃ v, args[st1.idx + 1]? = some v ∧ st2.idx = st1.idx + 1 + 1 ∧
            st2.result.options = umap_assign st1.result.options (nxt.drop 2) v ∧
            st2.result.flags = st1.result.flags))) ∧
      ∃ r, parse args = .ok r ∧ r.has_flag key = true ∧
        (∀ k, umap_find r.options k ≠ some nxt) ∧
        (r.has_flag (nxt.drop 2) = true ∨ (umap_find r.options (nxt.drop 2)).isSome = true) := by
  have hi : st.idx < args.length := by
    by_contra hc
    rw [List.getElem?_eq_none (by omega)] at hcur
    cases hcur
  have hb := loop_body_flag args st _ hcur hlen ⟨key, rfl⟩ (Or.inr ⟨nxt, hnxt, hq.1, hq.2⟩)
  simp only [List.drop_succ_cons, List.drop_zero] at hb
  have hv1 := visits_step args st _ hv hi hb
  exact ⟨_, hb, rfl, rfl, rfl, rfl, hv1,
    qualifying_token_step args _ key nxt hlen hv1
      ((mem_uset_insert _ _ _).mpr (Or.inr rfl)) hnxt hq⟩

/-- The line `string_str Hello World --able --divide ->` of use_command.cpp:62: the
loop reaches `--able` at index 3, `--divide` follows, `able` is a flag of the parsed
bundle and `divide` an option key. -/
theorem marker_before_qualifying_marker_witness :
    ∃ r, parse ["string_str".toList, "Hello".toList, "World".toList, "--able".toList,
        "--divide".toList, "->".toList] = .ok r ∧
      r.has_flag "able".toList = true ∧
      (∀ k, umap_find r.options k ≠ some "--divide".toList) ∧
      (r.has_flag ("--divide".toList.drop 2) = true ∨
        (umap_find r.options ("--divide".toList.drop 2)).isSome = true) :=
  (marker_before_qualifying_marker
    ["string_str".toList, "Hello".toList, "World".toList, "--able".toList,
      "--divide".toList, "->".toList]
    { idx := 3,
      result := { options := [], flags := [],
                  positional := ["string_str".toList, "Hello".toList, "World".toList] } }
    "able".toList "--divide".toList (by decide) ⟨3, by decide⟩ (by decide) (by decide)
    ⟨by decide, ⟨"divide".toList, by decide⟩⟩).elim
    (fun _ h => h.2.2.2.2.2.2.2)

end CommandArgs

end cmdkit

/-! ## More properties of the loop of `parse` -/

namespace cmdkit

namespace CommandArgs

/-- One iteration moves the cursor by one, or by two over a token the look-ahead
refused, and only appends to `positional`. -/
theorem loop_body_cases (args : List Str) (st : LoopState) (hi : st.idx < args.length) :
    ∃ st', loop_body args st = .ok st' ∧
      (st'.idx = st.idx + 1 ∨
        (st'.idx = st.idx + 1 + 1 ∧ ¬ NextQualifies args st.idx ∧ st.idx + 1 < args.length)) ∧
      st.result.positional <+: st'.result.positional := by
  have ha : args[st.idx]? = some args[st.idx] := List.getElem?_eq_getElem hi
  by_cases hm : args.length > 2 ∧ ['-', '-'] <+: args[st.idx]
  · by_cases hf : st.idx = args.length - 1 ∨ NextQualifies args st.idx
    · exact ⟨_, loop_body_flag args st _ ha hm.1 hm.2 hf, Or.inl rfl, List.prefix_refl _⟩
    · obtain ⟨value, hv, hb⟩ := loop_body_option args st _ ha hm.1 hm.2 hf
      have hlt : st.idx + 1 < args.length := by
        have : st.idx ≠ args.length - 1 := fun h => hf (Or.inl h)
        omega
      exact ⟨_, hb, Or.inr ⟨rfl, fun h => hf (Or.inr h), hlt⟩, List.prefix_refl _⟩
  · exact ⟨_, loop_body_positional args st _ ha hm, Or.inl rfl, List.prefix_append _ _⟩

/-- The loop only moves the cursor forward and only appends to `positional`. -/
theorem run_loop_mono (args : List Str) (n : Nat) (st st' : LoopState)
    (hr : run_loop args n st = .ok st') :
    st.idx ≤ st'.idx ∧ st.result.positional <+: st'.result.positional := by
  induction n generalizing st with
  | zero =>
    simp only [run_loop, Except.ok.injEq] at hr
    subst hr; exact ⟨Nat.le_refl _, List.prefix_refl _⟩
  | succ n ih =>
    by_cases hi : st.idx < args.length
    · obtain ⟨st1, hb, hstep, hpre⟩ := loop_body_cases args st hi
      simp only [run_loop, hi, if_true, hb] at hr
      obtain ⟨h1, h2⟩ := ih st1 hr
      refine ⟨?_, hpre.trans h2⟩
      rcases hstep with h | ⟨h, _, _⟩ <;> omega
    · rw [run_loop_done args _ st hi] at hr
      have := Except.ok.inj hr
      subst this; exact ⟨Nat.le_refl _, List.prefix_refl _⟩

/-- A state reached from a visited state is visited. -/
theorem visits_run (args : List Str) (st st' : LoopState) (m : Nat) (hv : Visits args st)
    (hr : run_loop args m st = .ok st') : Visits args st' := by
  obtain ⟨n, hn⟩ := hv
  exact ⟨n + m, by rw [run_loop_add args n m _ st hn]; exact hr⟩

/-- The bundle `parse` returns is the one the loop ends with from any visited state. -/
theorem visits_final (args : List Str) (st : LoopState) (hv : Visits args st) :
    ∃ k stf, run_loop args k st = .ok stf ∧ parse args = .ok stf.result := by
  obtain ⟨n, hn⟩ := hv
  obtain ⟨stf, hf, hidx, hp⟩ := parse_total args
  refine ⟨args.length, stf, ?_, hp⟩
  have h1 : run_loop args (n + args.length) { idx := 0, result := empty }
      = run_loop args args.length st := run_loop_add args n _ _ _ hn
  have h2 : run_loop args (args.length + n) { idx := 0, result := empty }
      = run_loop args n stf := run_loop_add args _ n _ _ hf
  rw [run_loop_done args n stf (by omega)] at h2
  rw [Nat.add_comm] at h1
  rw [← h1]; exact h2

/-- The visited states are in a line: a visited state further than `st` is reached
from the state the iteration on `st` leaves. -/
theorem visits_after (args : List Str) (st st1 st2 : LoopState) (hv : Visits args st)
    (hi : st.idx < args.length) (hb : loop_body args st = .ok st1)
    (hv2 : Visits args st2) (hlt : st.idx < st2.idx) :
    ∃ m, run_loop args m st1 = .ok st2 := by
  obtain ⟨n0, hn0⟩ := hv
  obtain ⟨m, hm⟩ := hv2
  by_cases hle : m ≤ n0
  · exfalso
    have h := run_loop_add args m (n0 - m) _ st2 hm
    rw [Nat.add_sub_cancel' hle, hn0] at h
    have := (run_loop_mono args _ st2 st h.symm).1
    omega
  · refine ⟨m - (n0 + 1), ?_⟩
    have h1 : run_loop args (n0 + 1) { idx := 0, result := empty } = .ok st1 := by
      rw [run_loop_add args n0 1 _ st hn0]
      simp [run_loop, hi, hb]
    have h := run_loop_add args (n0 + 1) (m - (n0 + 1)) _ st1 h1
    rw [Nat.add_sub_cancel' (by omega), hm] at h
    exact h.symm

/-- A token the look-ahead accepts is never skipped: from a visited state before it
the loop reaches it. -/
theorem reaches_qualifying (args : List Str) (i : Nat) (t : Str)
    (ht : args[i]? = some t) (hq : t.length > 2 ∧ ['-', '-'] <+: t) (d : Nat) (st : LoopState)
    (hd : i - st.idx ≤ d) (hle : st.idx ≤ i) :
    ∃ k st', run_loop args k st = .ok st' ∧ st'.idx = i := by
  have hi : i < args.length := by
    by_contra hc
    rw [List.getElem?_eq_none (by omega)] at ht
    cases ht
  induction d generalizing st with
  | zero => exact ⟨0, st, rfl, by omega⟩
  | succ d ih =>
    by_cases heq : st.idx = i
    · exact ⟨0, st, rfl, heq⟩
    · have hlt : st.idx < args.length := by omega
      obtain ⟨st1, hb, hstep, _⟩ := loop_body_cases args st hlt
      have h1 : st1.idx ≤ i ∧ i - st1.idx ≤ d := by
        rcases hstep with h | ⟨h, hnq, _⟩
        · omega
        · have : st.idx + 1 ≠ i := by
            intro h'
            apply hnq
            exact ⟨t, by rw [h']; exact ht, hq.1, hq.2⟩
          omega
      obtain ⟨k, st', hr, hidx⟩ := ih st1 h1.2 h1.1
      exact ⟨k + 1, st', by simp only [run_loop, hlt, if_true, hb]; exact hr, hidx⟩

/-- A token the look-ahead accepts is visited by the loop. -/
theorem qualifying_visited (args : List Str) (i : Nat) (t : Str)
    (ht : args[i]? = some t) (hq : t.length > 2 ∧ ['-', '-'] <+: t) :
    ∃ st, Visits args st ∧ st.idx = i := by
  obtain ⟨k, st', hr, hidx⟩ :=
    reaches_qualifying args i t ht hq i { idx := 0, result := empty } (by simp) (Nat.zero_le _)
  exact ⟨st', ⟨k, hr⟩, hidx⟩

/-- An option value stays until a later marker with the same key takes the option
branch. -/
theorem option_survives (args : List Str) (key v : Str) (m : Nat) (sa sb : LoopState)
    (hfind : umap_find sa.result.options key = some v)
    (hr : run_loop args m sa = .ok sb)
    (hno : ∀ j st2, run_loop args j sa = .ok st2 → st2.idx < args.length →
      args[st2.idx]? = some ('-' :: '-' :: key) →
      (st2.idx = args.length - 1 ∨ NextQualifies args st2.idx)) :
    umap_find sb.result.options key = some v := by
  induction m generalizing sa with
  | zero =>
    simp only [run_loop, Except.ok.injEq] at hr
    subst hr; exact hfind
  | succ m ih =>
    by_cases hi : sa.idx < args.length
    · have ha : args[sa.idx]? = some args[sa.idx] := List.getElem?_eq_getElem hi
      have hstep : ∃ s1, loop_body args sa = .ok s1 ∧
          umap_find s1.result.options key = some v := by
        by_cases hm : args.length > 2 ∧ ['-', '-'] <+: args[sa.idx]
        · by_cases hf : sa.idx = args.length - 1 ∨ NextQualifies args sa.idx
          · exact ⟨_, loop_body_flag args sa _ ha hm.1 hm.2 hf, hfind⟩
          · obtain ⟨value, _, hb⟩ := loop_body_option args sa _ ha hm.1 hm.2 hf
            refine ⟨_, hb, ?_⟩
            obtain ⟨rest, hrest⟩ := hm.2
            have hne : ¬ (args[sa.idx].drop 2 = key) := by
              intro hk
              apply hf
              apply hno 0 sa rfl hi
              have harg : args[sa.idx] = '-' :: '-' :: rest := hrest.symm
              rw [harg] at hk
              simp only [List.drop_succ_cons, List.drop_zero] at hk
              rw [ha, harg, hk]
            simp only [umap_find_assign, hne, if_false]
            exact hfind
        · exact ⟨_, loop_body_positional args sa _ ha hm, hfind⟩
      obtain ⟨s1, hb, hf1⟩ := hstep
      simp only [run_loop, hi, if_true, hb] at hr
      refine ih s1 hf1 hr ?_
      intro j st2 hj
      apply hno (j + 1) st2
      simp only [run_loop, hi, if_true, hb]; exact hj
    · rw [run_loop_done args _ sa hi] at hr
      have := Except.ok.inj hr
      subst this; exact hfind

/-- The value an iteration leaves for `key` is the one `get_option` returns on the
parsed bundle when no later visited marker `--key` takes the option branch. -/
theorem option_final (args : List Str) (st st1 : LoopState) (key v : Str)
    (hv : Visits args st) (hi : st.idx < args.length) (hb : loop_body args st = .ok st1)
    (hfind : umap_find st1.result.options key = some v)
    (hlast : ∀ st2, Visits args st2 → st.idx < st2.idx →
      args[st2.idx]? = some ('-' :: '-' :: key) →
      (st2.idx = args.length - 1 ∨ NextQualifies args st2.idx)) :
    ∃ r, parse args = .ok r ∧ ∀ d, r.get_option key d = v := by
  have hv1 := visits_step args st st1 hv hi hb
  obtain ⟨k, stf, hk, hp⟩ := visits_final args st1 hv1
  have hlt : st.idx < st1.idx := by
    obtain ⟨st', hb', h, _⟩ := loop_body_total args st hi
    rw [hb] at hb'
    have := Except.ok.inj hb'
    subst this; exact h
  refine ⟨stf.result, hp, ?_⟩
  have := option_survives args key v k st1 stf hfind hk (by
    intro j st2 hj _ hget
    have hv2 := visits_run args st1 st2 j hv1 hj
    have := (run_loop_mono args j st1 st2 hj).1
    exact hlast st2 hv2 (by omega) hget)
  intro d
  simp [get_option, this]

/-- The index after a marker that took a value is never visited. -/
theorem value_not_visited (args : List Str) (st st1 st2 : LoopState) (hv : Visits args st)
    (hi : st.idx < args.length) (hb : loop_body args st = .ok st1)
    (h1 : st1.idx = st.idx + 1 + 1) (hv2 : Visits args st2) : st2.idx ≠ st.idx + 1 := by
  intro h
  obtain ⟨m, hm⟩ := visits_after args st st1 st2 hv hi hb hv2 (by omega)
  have := (run_loop_mono args m st1 st2 hm).1
  omega

/-- With no token starting with `--`, the loop copies the tokens to `positional`. -/
theorem run_loop_plain_tokens (args : List Str) (h : ∀ t ∈ args, ¬ ['-', '-'] <+: t)
    (n i : Nat) :
    ∃ st', run_loop args n
        { idx := i, result := { options := [], flags := [], positional := args.take i } }
        = .ok st' ∧
      st'.result = { options := [], flags := [], positional := args.take (i + n) } := by
  induction n generalizing i with
  | zero => exact ⟨_, rfl, rfl⟩
  | succ n ih =>
    by_cases hi : i < args.length
    · have ha : args[i]? = some args[i] := List.getElem?_eq_getElem hi
      have hb := loop_body_positional args
        { idx := i, result := { options := [], flags := [], positional := args.take i } }
        args[i] ha (fun hm => h _ (List.getElem_mem hi) hm.2)
      have htake : args.take i ++ [args[i]] = args.take (i + 1) := by
        rw [List.take_succ, ha]; rfl
      simp only [htake] at hb
      obtain ⟨st', hr, hres⟩ := ih (i + 1)
      refine ⟨st', ?_, ?_⟩
      · simp only [run_loop, hi, if_true, hb]; exact hr
      · rw [hres, Nat.add_assoc, Nat.add_comm 1 n]
    · refine ⟨_, run_loop_done args _ _ hi, ?_⟩
      simp only
      rw [List.take_of_length_le (by omega), List.take_of_length_le (by omega)]

/-- C11: in a list of more than two tokens, when the loop reaches a marker `--key`
whose next token `v` does not start with `--`, the iteration stores `key -> v` in
the options, leaves `positional` and the flags alone and moves the cursor by two;
the index of `v` is never visited, so `v` is neither classified nor appended; and
`get_option(key, d)` is `v` on the parsed bundle for every `d` unless a later
visited marker with the same key takes a value. -/
theorem marker_with_value (args : List Str) (st : LoopState) (key v : Str)
    (hlen : args.length > 2) (hv : Visits args st)
    (hcur : args[st.idx]? = some ('-' :: '-' :: key))
    (hnxt : args[st.idx + 1]? = some v)
    (hplain : ¬ ['-', '-'] <+: v) :
    ∃ st1, loop_body args st = .ok st1 ∧ st1.idx = st.idx + 2 ∧
      st1.result.options = umap_assign st.result.options key v ∧
      st1.result.positional = st.result.positional ∧
      st1.result.flags = st.result.flags ∧
      Visits args st1 ∧
      (∀ st2, Visits args st2 → st2.idx ≠ st.idx + 1) ∧
      (∀ d, st1.result.get_option key d = v) ∧
      ((∀ st2, Visits args st2 → st.idx < st2.idx →
          args[st2.idx]? = some ('-' :: '-' :: key) →
          (st2.idx = args.length - 1 ∨ NextQualifies args st2.idx)) →
        ∃ r, parse args = .ok r ∧ ∀ d, r.get_option key d = v) := by
  have hi : st.idx < args.length := by
    by_contra hc
    rw [List.getElem?_eq_none (by omega)] at hcur
    cases hcur
  have hi1 : st.idx + 1 < args.length := by
    by_contra hc
    rw [List.getElem?_eq_none (by omega)] at hnxt
    cases hnxt
  have hf : ¬ (st.idx = args.length - 1 ∨ NextQualifies args st.idx) := by
    rintro (h | ⟨n', hn', _, hp⟩)
    · omega
    · rw [hnxt] at hn'
      have := Option.some.inj hn'
      subst this; exact hplain hp
  obtain ⟨value, hval, hb⟩ := loop_body_option args st _ hcur hlen ⟨key, rfl⟩ hf
  have hvv : value = v := by rw [hnxt] at hval; exact (Option.some.inj hval).symm
  subst hvv
  simp only [List.drop_succ_cons, List.drop_zero] at hb
  have hfind : umap_find (umap_assign st.result.options key value) key = some value := by
    simp [umap_find_assign]
  refine ⟨_, hb, rfl, rfl, rfl, rfl, visits_step args st _ hv hi hb, ?_, ?_, ?_⟩
  · intro st2 hv2
    exact value_not_visited args st _ st2 hv hi hb rfl hv2
  · intro d; simp [get_option, hfind]
  · intro hlast
    exact option_final args st _ key value hv hi hb hfind hlast

/-- The line `cmd a --divide ->` of C11: `get_option("divide", "-")` is `->`. -/
theorem marker_with_value_witness :
    ∃ r, parse ["cmd".toList, "a".toList, "--divide".toList, "->".toList] = .ok r ∧
      r.get_option "divide".toList "-".toList = "->".toList :=
  ((marker_with_value ["cmd".toList, "a".toList, "--divide".toList, "->".toList]
    { idx := 2,
      result := { options := [], flags := [], positional := ["cmd".toList, "a".toList] } }
    "divide".toList "->".toList (by decide) ⟨2, by decide⟩ (by decide) (by decide)
    (by decide)).elim (fun _ h => h.2.2.2.2.2.2.2.2
      (fun st2 _ hlt hget => by
        exfalso
        simp only at hlt
        rcases Nat.lt_or_ge st2.idx 4 with h4 | h4
        · have h3 : st2.idx = 3 := by omega
          rw [h3] at hget
          exact absurd hget (by decide)
        · rw [List.getElem?_eq_none (by simpa using h4)] at hget
          cases hget))).elim (fun r h => ⟨r, h.1, h.2 _⟩)

/-- C12: when a list of more than two tokens ends with `--k`, `k` non-empty,
`has_flag(k)` holds on the parsed bundle, whatever the tokens before it are. -/
theorem last_marker_is_flag (args : List Str) (k : Str) (hlen : args.length > 2)
    (hk : k ≠ []) (hlast : args[args.length - 1]? = some ('-' :: '-' :: k)) :
    ∃ r, parse args = .ok r ∧ r.has_flag k = true := by
  have hq : ('-' :: '-' :: k).length > 2 ∧ ['-', '-'] <+: ('-' :: '-' :: k) := by
    refine ⟨?_, ⟨k, rfl⟩⟩
    rcases k with _ | ⟨c, t⟩
    · exact absurd rfl hk
    · simp
  obtain ⟨st, hv, hidx⟩ := qualifying_visited args _ _ hlast hq
  have hcur : args[st.idx]? = some ('-' :: '-' :: k) := by rw [hidx]; exact hlast
  have hb := loop_body_flag args st _ hcur hlen hq.2 (Or.inl hidx)
  simp only [List.drop_succ_cons, List.drop_zero] at hb
  obtain ⟨_, r, hp, hg⟩ := visits_grows args _ (visits_step args st _ hv (by omega) hb)
  exact ⟨r, hp, (has_flag_iff r k).mpr (hg.1 k ((mem_uset_insert _ _ _).mpr (Or.inr rfl)))⟩

/-- The line `cmd a --able` of C12: `has_flag("able")` holds. -/
theorem last_marker_is_flag_witness :
    ∃ r, parse ["cmd".toList, "a".toList, "--able".toList] = .ok r ∧
      r.has_flag "able".toList = true :=
  last_marker_is_flag ["cmd".toList, "a".toList, "--able".toList] "able".toList
    (by decide) (by decide) (by decide)

/-- C15, as the claim states it, fails when the first of more than two tokens starts
with `--`: on `--a x y` the first token is taken as the option `a -> x` and
`positional` is `[y]`, so index 0 holds `y`; on `--a --bb --cc` every token is a flag
and `positional` is empty, so the read of index 0 is out of bounds. -/
theorem positional_head_counterexample :
    parse ["--a".toList, "x".toList, "y".toList]
      = .ok { options := [("a".toList, "x".toList)], flags := [],
              positional := ["y".toList] } ∧
    at_index { options := [("a".toList, "x".toList)], flags := [],
               positional := ["y".toList] } 0 = .ok "y".toList ∧
    "y".toList ≠ "--a".toList ∧
    parse ["--a".toList, "--bb".toList, "--cc".toList]
      = .ok { options := [], flags := ["a".toList, "bb".toList, "cc".toList],
              positional := [] } ∧
    at_index { options := [], flags := ["a".toList, "bb".toList, "cc".toList],
               positional := [] } 0 = .error .out_of_bounds :=
  ⟨by decide, by decide, by decide, by decide, by decide⟩

/-- C15 (amended): for every non-empty token list that has at most two tokens or
whose first token does not start with `--`, the positional list of the parsed bundle
is non-empty and its element at index 0 is the first token. -/
theorem positional_head (args : List Str) (first : Str) (rest : List Str)
    (hargs : args = first :: rest)
    (hnm : args.length ≤ 2 ∨ ¬ ['-', '-'] <+: first) :
    ∃ r, parse args = .ok r ∧ r.get_positional ≠ [] ∧ r.at_index 0 = .ok first := by
  have hi : (0 : Nat) < args.length := by rw [hargs]; simp
  have ha : args[(0 : Nat)]? = some first := by rw [hargs]; simp
  have hb := loop_body_positional args { idx := 0, result := empty } first ha (by
    rintro ⟨h1, h2⟩
    rcases hnm with h | h
    · omega
    · exact h h2)
  have hv1 := visits_step args _ _ ⟨0, rfl⟩ hi hb
  obtain ⟨k, stf, hk, hp⟩ := visits_final args _ hv1
  obtain ⟨_, tl, htl⟩ := run_loop_mono args k _ stf hk
  simp only [empty, List.nil_append, List.singleton_append] at htl
  refine ⟨stf.result, hp, ?_, ?_⟩
  · simp [get_positional, ← htl]
  · simp [at_index, vec_at, ← htl]

/-- The line `string_str Hello World --able` of use_command.cpp:61: index 0 of the
positional list is `string_str`. -/
theorem positional_head_witness :
    ∃ r, parse ["string_str".toList, "Hello".toList, "World".toList, "--able".toList] = .ok r ∧
      r.get_positional ≠ [] ∧ r.at_index 0 = .ok "string_str".toList :=
  positional_head ["string_str".toList, "Hello".toList, "World".toList, "--able".toList]
    "string_str".toList ["Hello".toList, "World".toList, "--able".toList] rfl
    (Or.inr (by decide))

/-- C16: options are last-write-wins: when the loop reaches a marker `--key` that
takes the value `value`, and no marker `--key` the loop visits later takes a value,
`get_option(key, d)` is `value` on the parsed bundle for every `d`, whatever
values `key` was given before. -/
theorem option_last_write_wins (args : List Str) (st : LoopState) (key value : Str)
    (hlen : args.length > 2) (hv : Visits args st)
    (hcur : args[st.idx]? = some ('-' :: '-' :: key))
    (hopt : ¬ (st.idx = args.length - 1 ∨ NextQualifies args st.idx))
    (hval : args[st.idx + 1]? = some value)
    (hlast : ∀ st2, Visits args st2 → st.idx < st2.idx →
      args[st2.idx]? = some ('-' :: '-' :: key) →
      (st2.idx = args.length - 1 ∨ NextQualifies args st2.idx)) :
    ∃ r, parse args = .ok r ∧ ∀ d, r.get_option key d = value := by
  have hi : st.idx < args.length := by
    by_contra hc
    rw [List.getElem?_eq_none (by omega)] at hcur
    cases hcur
  obtain ⟨v', hv', hb⟩ := loop_body_option args st _ hcur hlen ⟨key, rfl⟩ hopt
  have hvv : v' = value := by rw [hval] at hv'; exact (Option.some.inj hv').symm
  subst hvv
  simp only [List.drop_succ_cons, List.drop_zero] at hb
  exact option_final args st _ key v' hv hi hb (by simp [umap_find_assign]) hlast

/-- The line `cmd --k a --k b` of C16: the loop reaches the second `--k` at index 3
with `k -> a` stored, and `get_option("k", d)` is `b`. -/
theorem option_last_write_wins_witness :
    Visits ["cmd".toList, "--k".toList, "a".toList, "--k".toList, "b".toList]
      { idx := 3,
        result := { options := [("k".toList, "a".toList)], flags := [],
                    positional := ["cmd".toList] } } ∧
    ∃ r, parse ["cmd".toList, "--k".toList, "a".toList, "--k".toList, "b".toList] = .ok r ∧
      r.get_option "k".toList "".toList = "b".toList :=
  ⟨⟨2, by decide⟩,
   (option_last_write_wins
    ["cmd".toList, "--k".toList, "a".toList, "--k".toList, "b".toList]
    { idx := 3,
      result := { options := [("k".toList, "a".toList)], flags := [],
                  positional := ["cmd".toList] } }
    "k".toList "b".toList (by decide) ⟨2, by decide⟩ (by decide)
    (by
      rintro (h | ⟨n', hn', hl, _⟩)
      · exact absurd h (by decide)
      · have hb : n' = "b".toList := (Option.some.inj hn').symm
        subst hb
        exact absurd hl (by decide))
    (by decide)
    (fun st2 _ hlt hget => by
      exfalso
      simp only at hlt
      rcases Nat.lt_or_ge st2.idx 5 with h5 | h5
      · have h4 : st2.idx = 4 := by omega
        rw [h4] at hget
        exact absurd hget (by decide)
      · rw [List.getElem?_eq_none (by simpa using h5)] at hget
        cases hget)).elim (fun r h => ⟨r, h.1, h.2 _⟩)⟩

/-- C17: when no token starts with `--`, `parse` returns the whole list as
`positional`, in order, with no flag and no option: `has_flag` is false and
`get_option` returns the default for every name, key and default. -/
theorem no_markers_all_positional (args : List Str)
    (h : ∀ t ∈ args, ¬ ['-', '-'] <+: t) :
    parse args = .ok { options := [], flags := [], positional := args } ∧
    (∀ r, parse args = .ok r →
      r.get_positional = args ∧ (∀ name, r.has_flag name = false) ∧
      (∀ key d, r.get_option key d = d)) := by
  have hp : parse args = .ok { options := [], flags := [], positional := args } := by
    obtain ⟨st, hr, _, hp⟩ := parse_total args
    obtain ⟨st', hr', hres⟩ := run_loop_plain_tokens args h args.length 0
    simp only [List.take_zero, Nat.zero_add, List.take_length] at hr' hres
    have hst : st' = st := by
      have : run_loop args args.length { idx := 0, result := empty } = .ok st' := hr'
      rw [hr] at this
      exact (Except.ok.inj this).symm
    subst hst
    rw [hp, hres]
  refine ⟨hp, ?_⟩
  intro r hr
  rw [hp] at hr
  have := Except.ok.inj hr
  subst this
  refine ⟨rfl, ?_, ?_⟩
  · intro name; simp [has_flag, uset_count]
  · intro key d; simp [get_option, umap_find]

/-- The line `string_str Hello World` of use_command.cpp:60: three positional tokens,
no flag `able`. -/
theorem no_markers_all_positional_witness :
    parse ["string_str".toList, "Hello".toList, "World".toList]
      = .ok { options := [], flags := [],
              positional := ["string_str".toList, "Hello".toList, "World".toList] } ∧
    has_flag { options := [], flags := [],
               positional := ["string_str".toList, "Hello".toList, "World".toList] }
      "able".toList = false :=
  ⟨(no_markers_all_positional ["string_str".toList, "Hello".toList, "World".toList]
      (by decide)).1,
   ((no_markers_all_positional ["string_str".toList, "Hello".toList, "World".toList]
      (by decide)).2 _
      (no_markers_all_positional ["string_str".toList, "Hello".toList, "World".toList]
        (by decide)).1).2.1 _⟩

end CommandArgs

end cmdkit

/-! ## Properties of the tokenizer -/

namespace cmdkit

/-- Dropping as many elements as `takeWhile` takes leaves what `dropWhile` leaves. -/
theorem drop_takeWhile_length (p : Char → Bool) (l : List Char) :
    l.drop (l.takeWhile p).length = l.dropWhile p := by
  induction l with
  | nil => rfl
  | cons a l ih =>
    by_cases h : p a
    · simp [List.takeWhile_cons, List.dropWhile_cons, h, ih]
    · simp [List.takeWhile_cons, List.dropWhile_cons, h]

/-- Taking as many elements as `takeWhile` takes is `takeWhile`. -/
theorem take_takeWhile_length (p : Char → Bool) (l : List Char) :
    l.take (l.takeWhile p).length = l.takeWhile p := by
  induction l with
  | nil => rfl
  | cons a l ih =>
    by_cases h : p a
    · simp [List.takeWhile_cons, h, ih]
    · simp [List.takeWhile_cons, h]

/-- The inner loop stops after the longest run of characters passing the test. -/
theorem scan_while_eq (p : Char → Bool) (s : Str) (fuel pos : Nat)
    (hle : pos ≤ s.length) (hf : s.length - pos < fuel) :
    scan_while p s fuel pos = .ok (pos + ((s.drop pos).takeWhile p).length) := by
  induction fuel generalizing pos with
  | zero => omega
  | succ fuel ih =>
    by_cases hlt : pos < s.length
    · have hget : s[pos]? = some s[pos] := List.getElem?_eq_getElem hlt
      have hdrop : s.drop pos = s[pos] :: s.drop (pos + 1) := List.drop_eq_getElem_cons hlt
      by_cases hp : p s[pos]
      · simp only [scan_while, hlt, decide_True, and_also, str_at, hget, hp]
        rw [ih (pos + 1) (by omega) (by omega), hdrop, List.takeWhile_cons, hp]
        simp only [if_true, List.length_cons]
        congr 1; omega
      · simp only [scan_while, hlt, decide_True, and_also, str_at, hget, hp]
        rw [hdrop, List.takeWhile_cons]
        simp [hp]
    · have hd : s.drop pos = [] := List.drop_eq_nil_of_le (by omega)
      simp [scan_while, hlt, and_also, hd]

/-- Whitespace in front does not change the maximal runs. -/
theorem maximal_runs_space (c : Char) (l : List Char) (hc : isspace c = true) :
    maximal_runs (c :: l) = maximal_runs l := by
  simp [maximal_runs, List.splitOnP_cons, hc]

theorem maximal_runs_nil : maximal_runs [] = [] := by
  simp [maximal_runs]

/-- Leading whitespace does not change the maximal runs. -/
theorem maximal_runs_dropWhile (l : List Char) :
    maximal_runs (l.dropWhile isspace) = maximal_runs l := by
  induction l with
  | nil => rfl
  | cons a l ih =>
    by_cases h : isspace a = true
    · rw [List.dropWhile_cons, if_pos h, ih, maximal_runs_space a l h]
    · rw [List.dropWhile_cons, if_neg h]

/-- The first piece of a split is the longest prefix without a separator, and the
non-empty pieces after it are the maximal runs of what follows that prefix. -/
theorem splitOnP_head (l : List Char) :
    ∃ rest, l.splitOnP isspace = l.takeWhile (fun c => !isspace c) :: rest ∧
      rest.filter (fun t => !t.isEmpty) = maximal_runs (l.dropWhile (fun c => !isspace c)) := by
  induction l with
  | nil => exact ⟨[], rfl, by simp [maximal_runs]⟩
  | cons a l ih =>
    obtain ⟨rest, h1, h2⟩ := ih
    by_cases h : isspace a = true
    · refine ⟨l.splitOnP isspace, ?_, ?_⟩
      · simp [List.splitOnP_cons, h, List.takeWhile_cons]
      · simp [List.dropWhile_cons, h, maximal_runs, List.splitOnP_cons]
    · refine ⟨rest, ?_, ?_⟩
      · simp [List.splitOnP_cons, h, List.takeWhile_cons, h1]
      · simp only [List.dropWhile_cons, h, Bool.not_false, Bool.not_true, if_true]
        simpa using h2

/-- A string starting with a non-whitespace character: its first maximal run is its
longest whitespace-free prefix. -/
theorem maximal_runs_token (a : Char) (l : List Char) (ha : isspace a = false) :
    maximal_runs (a :: l) = (a :: l).takeWhile (fun c => !isspace c) ::
      maximal_runs ((a :: l).dropWhile (fun c => !isspace c)) := by
  obtain ⟨rest, h1, h2⟩ := splitOnP_head (a :: l)
  rw [← h2]
  unfold maximal_runs
  rw [h1]
  simp [List.takeWhile_cons, ha, List.filter_cons]

/-- What `dropWhile` leaves starts with an element failing the test. -/
theorem dropWhile_head (p : Char → Bool) (l : List Char) (a : Char) (t : List Char)
    (h : l.dropWhile p = a :: t) : p a = false := by
  induction l with
  | nil => cases h
  | cons b l ih =>
    by_cases hb : p b = true
    · rw [List.dropWhile_cons, if_pos hb] at h; exact ih h
    · rw [List.dropWhile_cons, if_neg hb] at h
      have hab : b = a := (List.cons.inj h).1
      rw [← hab]; simpa using hb

/-- The outer loop appends the maximal runs of what is left of the string. -/
theorem tokenize_loop_eq (s : Str) (fuel pos : Nat) (vec : List Str)
    (hle : pos ≤ s.length) (hf : s.length - pos < fuel) :
    tokenize_loop s fuel pos vec = .ok (vec ++ maximal_runs (s.drop pos)) := by
  induction fuel generalizing pos vec with
  | zero => omega
  | succ fuel ih =>
    by_cases hlt : pos < s.length
    · have h1 := scan_while_eq isspace s (s.length + 1) pos hle (by omega)
      have hk1 : ((s.drop pos).takeWhile isspace).length ≤ s.length - pos := by
        have := (List.takeWhile_prefix isspace (l := s.drop pos)).length_le
        simpa using this
      have hd1 : s.drop (pos + ((s.drop pos).takeWhile isspace).length)
          = (s.drop pos).dropWhile isspace := by
        rw [← List.drop_drop, drop_takeWhile_length]
      have hruns : maximal_runs (s.drop pos)
          = maximal_runs (s.drop (pos + ((s.drop pos).takeWhile isspace).length)) := by
        rw [hd1, maximal_runs_dropWhile]
      have hb1 : pos ≤ pos + ((s.drop pos).takeWhile isspace).length ∧
          pos + ((s.drop pos).takeWhile isspace).length ≤ s.length := by omega
      generalize pos + ((s.drop pos).takeWhile isspace).length = pos1 at h1 hd1 hruns hb1
      by_cases hge : pos1 ≥ s.length
      · have hnil : s.drop pos1 = [] := List.drop_eq_nil_of_le hge
        simp [tokenize_loop, hlt, h1, hge, hruns, hnil, maximal_runs_nil]
      · obtain ⟨a, t, hat⟩ : ∃ a t, s.drop pos1 = a :: t := by
          rcases hl : s.drop pos1 with _ | ⟨a, t⟩
          · have := List.drop_eq_nil_iff.mp hl
            omega
          · exact ⟨a, t, rfl⟩
        have ha : isspace a = false := dropWhile_head isspace (s.drop pos) a t (by rw [← hd1, hat])
        have h2 := scan_while_eq (fun c => !isspace c) s (s.length + 1) pos1 hb1.2 (by omega)
        have hk2 : 1 ≤ ((s.drop pos1).takeWhile (fun c => !isspace c)).length ∧
            ((s.drop pos1).takeWhile (fun c => !isspace c)).length ≤ s.length - pos1 := by
          constructor
          · rw [hat, List.takeWhile_cons]; simp [ha]
          · have := (List.takeWhile_prefix (fun c => !isspace c) (l := s.drop pos1)).length_le
            simpa using this
        have hd2 : s.drop (pos1 + ((s.drop pos1).takeWhile (fun c => !isspace c)).length)
            = (s.drop pos1).dropWhile (fun c => !isspace c) := by
          rw [← List.drop_drop, drop_takeWhile_length]
        have htok : substr_len s pos1
            (pos1 + ((s.drop pos1).takeWhile (fun c => !isspace c)).length - pos1)
            = .ok ((s.drop pos1).takeWhile (fun c => !isspace c)) := by
          simp only [substr_len, hb1.2, if_true, Nat.add_sub_cancel_left]
          rw [take_takeWhile_length]
        have hrec := ih (pos1 + ((s.drop pos1).takeWhile (fun c => !isspace c)).length)
          (vec ++ [(s.drop pos1).takeWhile (fun c => !isspace c)]) (by omega) (by omega)
        simp only [tokenize_loop, hlt, if_true, h1, hge, if_false, h2, htok, hrec]
        rw [hruns, hd2, hat, maximal_runs_token a t ha]
        simp
    · have hd : s.drop pos = [] := List.drop_eq_nil_of_le (by omega)
      simp [tokenize_loop, hlt, hd, maximal_runs_nil]

/-- The token vector of a string is the list of its maximal runs. -/
theorem tokenize_eq (s : Str) : tokenize s = .ok (maximal_runs s) := by
  have := tokenize_loop_eq s (s.length + 1) 0 [] (Nat.zero_le _) (by omega)
  simpa [tokenize] using this

/-- The pieces of a split hold no separator and only characters of the string. -/
theorem splitOnP_pieces (l : List Char) :
    ∀ t ∈ l.splitOnP isspace, ∀ c ∈ t, isspace c = false ∧ c ∈ l := by
  induction l with
  | nil => simp
  | cons a l ih =>
    obtain ⟨h, tl, heq⟩ := List.exists_cons_of_ne_nil (List.splitOnP_ne_nil isspace l)
    rw [heq] at ih
    by_cases ha : isspace a = true
    · simp only [List.splitOnP_cons, ha, if_true, heq]
      intro t ht c hc
      rcases List.mem_cons.mp ht with h0 | h0
      · subst h0; cases hc
      · exact ⟨(ih t h0 c hc).1, List.mem_cons_of_mem _ (ih t h0 c hc).2⟩
    · simp only [List.splitOnP_cons, ha, heq, List.modifyHead_cons]
      intro t ht c hc
      rcases List.mem_cons.mp ht with h0 | h0
      · subst h0
        rcases List.mem_cons.mp hc with h1 | h1
        · subst h1; exact ⟨by simpa using ha, List.mem_cons_self _ _⟩
        · exact ⟨(ih h (List.mem_cons_self _ _) c h1).1,
            List.mem_cons_of_mem _ (ih h (List.mem_cons_self _ _) c h1).2⟩
      · exact ⟨(ih t (List.mem_cons_of_mem _ h0) c hc).1,
          List.mem_cons_of_mem _ (ih t (List.mem_cons_of_mem _ h0) c hc).2⟩

/-- The pieces of a split, concatenated, are the string without its separators. -/
theorem splitOnP_flatten (l : List Char) :
    (l.splitOnP isspace).flatten = l.filter (fun c => !isspace c) := by
  induction l with
  | nil => rfl
  | cons a l ih =>
    obtain ⟨h, tl, heq⟩ := List.exists_cons_of_ne_nil (List.splitOnP_ne_nil isspace l)
    rw [heq] at ih
    by_cases ha : isspace a = true
    · simp [List.splitOnP_cons, ha, heq, ← ih]
    · simp [List.splitOnP_cons, ha, heq, ← ih]

/-- Leaving out the empty pieces does not change the concatenation. -/
theorem flatten_nonempty (ls : List Str) :
    (ls.filter (fun t => !t.isEmpty)).flatten = ls.flatten := by
  induction ls with
  | nil => rfl
  | cons t ls ih =>
    rcases t with _ | ⟨c, t⟩
    · simpa using ih
    · simp [List.filter_cons, ih]

/-- A non-empty whitespace-free token followed by nothing or by whitespace is the
first maximal run. -/
theorem maximal_runs_append (t J : List Char) (hne : t ≠ [])
    (hws : ∀ c ∈ t, isspace c = false)
    (hJ : J = [] ∨ ∃ x J', J = x :: J' ∧ isspace x = true) :
    maximal_runs (t ++ J) = t :: maximal_runs J := by
  have htw : ∀ u : List Char, (∀ c ∈ u, isspace c = false) →
      (u ++ J).takeWhile (fun c => !isspace c) = u ∧
      (u ++ J).dropWhile (fun c => !isspace c) = J := by
    intro u hu
    induction u with
    | nil =>
      rcases hJ with h | ⟨x, J', h, hx⟩
      · subst h; exact ⟨rfl, rfl⟩
      · subst h; simp [List.takeWhile_cons, List.dropWhile_cons, hx]
    | cons b u ih =>
      have hb : isspace b = false := hu b (List.mem_cons_self _ _)
      obtain ⟨i1, i2⟩ := ih (fun c hc => hu c (List.mem_cons_of_mem _ hc))
      simp [List.takeWhile_cons, List.dropWhile_cons, hb, i1, i2]
  rcases t with _ | ⟨a, t⟩
  · exact absurd rfl hne
  · have ha : isspace a = false := hws a (List.mem_cons_self _ _)
    obtain ⟨i1, i2⟩ := htw (a :: t) hws
    rw [List.cons_append, maximal_runs_token a (t ++ J) ha, ← List.cons_append, i1, i2]

/-- Tokens that are non-empty and whitespace-free are the maximal runs of their
join with single spaces. -/
theorem maximal_runs_join (tokens : List Str)
    (h : ∀ t ∈ tokens, t ≠ [] ∧ ∀ c ∈ t, isspace c = false) :
    maximal_runs (join_spaces tokens) = tokens := by
  induction tokens with
  | nil => exact maximal_runs_nil
  | cons t rest ih =>
    obtain ⟨hne, hws⟩ := h t (List.mem_cons_self _ _)
    have hrest := ih (fun u hu => h u (List.mem_cons_of_mem _ hu))
    rcases rest with _ | ⟨u, rest⟩
    · have := maximal_runs_append t [] hne hws (Or.inl rfl)
      simpa [join_spaces, maximal_runs_nil] using this
    · have := maximal_runs_append t (' ' :: join_spaces (u :: rest)) hne hws
        (Or.inr ⟨' ', _, rfl, by decide⟩)
      rw [join_spaces, this, maximal_runs_space ' ' _ (by decide), hrest]

namespace CommandArgs

/-- C13, as the claim states it, fails on a token sequence with an empty token, which
holds no whitespace character: `parse(["cmd", ""])` keeps the empty token in
`positional`, while the join `cmd ` tokenizes to `["cmd"]` alone. -/
theorem parse_join_counterexample :
    (∀ t ∈ (["cmd".toList, []] : List Str), ∀ c ∈ t, isspace c = false) ∧
    parse ["cmd".toList, []]
      = .ok { options := [], flags := [], positional := ["cmd".toList, []] } ∧
    join_spaces ["cmd".toList, []] = "cmd ".toList ∧
    parse_string (join_spaces ["cmd".toList, []])
      = .ok { options := [], flags := [], positional := ["cmd".toList] } ∧
    parse ["cmd".toList, []] ≠ parse_string (join_spaces ["cmd".toList, []]) :=
  ⟨by decide, by decide, by decide, by decide, by decide⟩

/-- C13 (amended): parsing idempotence: for every token sequence whose tokens are
non-empty and contain no whitespace character, `parse(join(tokens, " "))` equals
`parse(tokens)`: both return the same bundle. -/
theorem parse_join (tokens : List Str)
    (h : ∀ t ∈ tokens, t ≠ [] ∧ ∀ c ∈ t, isspace c = false) :
    parse_string (join_spaces tokens) = parse tokens ∧
    ∃ r, parse tokens = .ok r ∧ parse_string (join_spaces tokens) = .ok r := by
  have heq : parse_string (join_spaces tokens) = parse tokens := by
    simp only [parse_string, tokenize_eq, maximal_runs_join tokens h]
  obtain ⟨st, _, _, hp⟩ := parse_total tokens
  exact ⟨heq, st.result, hp, heq.trans hp⟩

/-- The line `string_str Hello World --able` of use_command.cpp:61 parses to the
bundle of its four tokens. -/
theorem parse_join_witness :
    join_spaces ["string_str".toList, "Hello".toList, "World".toList, "--able".toList]
      = "string_str Hello World --able".toList ∧
    parse_string
        (join_spaces ["string_str".toList, "Hello".toList, "World".toList, "--able".toList])
      = parse ["string_str".toList, "Hello".toList, "World".toList, "--able".toList] :=
  ⟨by decide,
   (parse_join ["string_str".toList, "Hello".toList, "World".toList, "--able".toList]
      (by decide)).1⟩

/-- C14: the token vector built from a string is the list of its maximal
non-whitespace substrings, left to right: every token is non-empty and
whitespace-free, the tokens concatenated are the string without its whitespace, and
an empty or all-whitespace string gives no token and the empty bundle. -/
theorem tokenize_spec (s : Str) :
    tokenize s = .ok (maximal_runs s) ∧
    parse_string s = parse (maximal_runs s) ∧
    (∀ t ∈ maximal_runs s, t ≠ [] ∧ ∀ c ∈ t, isspace c = false) ∧
    (maximal_runs s).flatten = s.filter (fun c => !isspace c) ∧
    ((∀ c ∈ s, isspace c = true) → tokenize s = .ok [] ∧ parse_string s = .ok empty) := by
  have hprop : ∀ t ∈ maximal_runs s, t ≠ [] ∧ ∀ c ∈ t, isspace c = false ∧ c ∈ s := by
    intro t ht
    simp only [maximal_runs, List.mem_filter] at ht
    refine ⟨?_, fun c hc => splitOnP_pieces s t ht.1 c hc⟩
    intro h0; rw [h0] at ht; simp at ht
  refine ⟨tokenize_eq s, by simp only [parse_string, tokenize_eq], ?_, ?_, ?_⟩
  · intro t ht
    exact ⟨(hprop t ht).1, fun c hc => ((hprop t ht).2 c hc).1⟩
  · rw [maximal_runs, flatten_nonempty, splitOnP_flatten]
  · intro hall
    have hnil : maximal_runs s = [] := by
      apply List.eq_nil_iff_forall_not_mem.mpr
      intro t ht
      obtain ⟨hne, hc⟩ := hprop t ht
      rcases t with _ | ⟨c, t⟩
      · exact hne rfl
      · have h1 := (hc c (List.mem_cons_self _ _))
        rw [hall c h1.2] at h1
        exact absurd h1.1 (by decide)
    refine ⟨by rw [tokenize_eq, hnil], ?_⟩
    simp only [parse_string, tokenize_eq, hnil]
    rfl

/-- The tokens of ` log_str   hello ` and the empty bundle of a blank line. -/
theorem tokenize_spec_witness :
    tokenize " log_str   hello ".toList = .ok ["log_str".toList, "hello".toList] ∧
    parse_string "   ".toList = .ok empty :=
  ⟨(tokenize_spec " log_str   hello ".toList).1.trans (by decide),
   ((tokenize_spec "   ".toList).2.2.2.2 (by decide)).2⟩

end CommandArgs

end cmdkit

/-! ## Properties of `Terminal` -/

namespace cmdkit

namespace Terminal

variable {σ : Type}

/-- The lookup misses exactly when no key of the table is equal to the key asked. -/
theorem table_find_none_iff (m : List (Str × Command σ)) (key : Str) :
    table_find m key = none ↔ ∀ e ∈ m, e.1 ≠ key := by
  induction m with
  | nil => simp [table_find]
  | cons e m ih =>
    rcases e with ⟨k, c⟩
    by_cases h : k = key
    · simp only [table_find, h, if_true]
      constructor
      · intro h0; cases h0
      · intro h0; exact absurd rfl (h0 (key, c) (List.mem_cons_self _ _))
    · simp only [table_find, h, if_false, ih]
      constructor
      · intro h0 e he
        rcases List.mem_cons.mp he with h1 | h1
        · rw [h1]; exact h
        · exact h0 e h1
      · intro h0 e he
        exact h0 e (List.mem_cons_of_mem _ he)

/-- What `command_table.find` sees after `command_table[name] = cmd`. -/
theorem table_find_assign (m : List (Str × Command σ)) (name k : Str) (cmd : Command σ) :
    table_find (table_assign m name cmd) k
      = if name = k then some cmd else table_find m k := by
  induction m with
  | nil => simp [table_assign, table_find]
  | cons e m ih =>
    rcases e with ⟨k0, c0⟩
    by_cases h0 : k0 = name
    · subst h0
      by_cases h1 : k0 = k <;> simp [table_assign, table_find, h1]
    · by_cases h1 : k0 = k
      · subst h1
        have : ¬ name = k0 := fun h => h0 h.symm
        simp [table_assign, table_find, h0, this]
      · simp [table_assign, table_find, h0, h1, ih]

/-- The lookup in the instrumented table finds the instrumented command. -/
theorem table_find_logged (m : List (Str × Command σ)) (key : Str) :
    table_find (logged_table m) key
      = (table_find m key).map (fun c =>
          { name := c.name, description := c.description,
            handler := c.handler.map (logged_handler key) }) := by
  induction m with
  | nil => rfl
  | cons e m ih =>
    rcases e with ⟨k, c⟩
    by_cases h : k = key
    · subst h; simp [logged_table, table_find]
    · have := ih
      simp only [logged_table] at this
      simp [logged_table, table_find, h, this]

/-- C18: when the table holds the command `cmd` with handler `h` under the key `n`
and the line parses to a bundle whose `positional[0]` is `n`, the dispatch with a
fallback ends as the one call `h(bundle)` does and leaves the terminal as it was;
with every call logged, the log grows by exactly that handler call and no fallback
call. -/
theorem dispatch_found (t : Terminal σ) (line : Str) (fallback : Callable σ Unit Unit)
    (s : σ) (log : List Call) (n : Str) (rest : List Str) (bundle : CommandArgs)
    (cmd : Command σ) (h : Callable σ CommandArgs (Result VoidPtr Str))
    (hparse : CommandArgs.parse_string line = .ok bundle)
    (hpos : bundle.positional = n :: rest)
    (hreg : table_find t.command_table n = some cmd)
    (hh : cmd.handler = some h) :
    t.invoke_with line fallback s
      = .ok { outcome := (h bundle s).1.map (fun _ => ()),
              state := (h bundle s).2,
              terminal := t } ∧
    (logged t).invoke_with line (logged_callback fallback) (s, log)
      = .ok { outcome := (h bundle s).1.map (fun _ => ()),
              state := ((h bundle s).2, log ++ [Call.handler n bundle]),
              terminal := logged t } := by
  constructor
  · simp [invoke_with, hparse, invoke_args_with, CommandArgs.at_index, vec_at, hpos, hreg,
      Command.invoke, Command.call_handler, hh]
  · simp [invoke_with, hparse, invoke_args_with, CommandArgs.at_index, vec_at, hpos, logged,
      table_find_logged, hreg, Command.invoke, Command.call_handler, hh, logged_handler]

/-- The dispatch of `log_str hello` of C18 on a terminal with `log_str` registered:
one call of its handler with positional `[log_str, hello]`, no fallback call. -/
theorem dispatch_found_witness :
    (logged sample_terminal).invoke_with "log_str hello".toList
        (logged_callback sample_fallback) ((), [])
      = .ok { outcome := .ok (),
              state := ((), [Call.handler "log_str".toList
                { options := [], flags := [],
                  positional := ["log_str".toList, "hello".toList] }]),
              terminal := logged sample_terminal } :=
  (dispatch_found sample_terminal "log_str hello".toList sample_fallback () []
    "log_str".toList ["hello".toList]
    { options := [], flags := [], positional := ["log_str".toList, "hello".toList] }
    sample_log_str (fun _ s => (.ok (Result.ok 0), s)) (by decide) rfl rfl rfl).2

/-- C19, as the claim states it, fails when the found command's handler throws the
exception the lookup miss throws: the table has the key `x`, equal to
`positional[0]`, and the dispatch of `x` without a fallback still ends with
`std::runtime_error("Not find command!")`. -/
theorem dispatch_not_found_counterexample :
    (∃ e ∈ throwing_terminal.command_table, e.1 = "x".toList) ∧
    (∃ d, throwing_terminal.invoke "x".toList () = .ok d ∧
      d.outcome = .error (.runtime_error "Not find command!")) ∧
    (∃ d, throwing_terminal.invoke_args
        { options := [], flags := [], positional := ["x".toList] } () = .ok d ∧
      d.outcome = .error (.runtime_error "Not find command!")) :=
  ⟨⟨_, List.mem_cons_self _ _, rfl⟩, ⟨_, rfl, rfl⟩, ⟨_, rfl, rfl⟩⟩

/-- C19 (amended): for an input whose positional list starts with `p0`, the
dispatch without a fallback throws `std::runtime_error("Not find command!")` and
leaves the state alone when no key of the table is equal to `p0`; when a key is
equal it ends as the found command's invocation does, so it returns when the handler
returns a Result, an error Result included; hence, for a found command that does not
itself throw that exception, the dispatch fails with it exactly when no key is
equal to `p0`. The string overload dispatches the parsed bundle. -/
theorem dispatch_not_found_iff (t : Terminal σ) (bundle : CommandArgs) (p0 : Str)
    (rest : List Str) (s : σ) (hpos : bundle.positional = p0 :: rest) :
    ((∀ e ∈ t.command_table, e.1 ≠ p0) →
      t.invoke_args bundle s
        = .ok { outcome := .error (.runtime_error "Not find command!"),
                state := s, terminal := t }) ∧
    (∀ cmd, table_find t.command_table p0 = some cmd →
      t.invoke_args bundle s
        = .ok { outcome := (cmd.invoke bundle s).1.map (fun _ => ()),
                state := (cmd.invoke bundle s).2, terminal := t }) ∧
    (∀ cmd h r s', table_find t.command_table p0 = some cmd → cmd.handler = some h →
      h bundle s = (.ok r, s') →
      t.invoke_args bundle s = .ok { outcome := .ok (), state := s', terminal := t }) ∧
    ((∀ cmd, table_find t.command_table p0 = some cmd →
        (cmd.invoke bundle s).1 ≠ .error (.runtime_error "Not find command!")) →
      ((∃ d, t.invoke_args bundle s = .ok d ∧
          d.outcome = .error (.runtime_error "Not find command!")) ↔
        ∀ e ∈ t.command_table, e.1 ≠ p0)) ∧
    (∀ line, CommandArgs.parse_string line = .ok bundle →
      t.invoke line s = t.invoke_args bundle s) := by
  have hmiss : table_find t.command_table p0 = none →
      t.invoke_args bundle s
        = .ok { outcome := .error (.runtime_error "Not find command!"),
                state := s, terminal := t } := by
    intro hnone
    simp [invoke_args, invoke_args_with, CommandArgs.at_index, vec_at, hpos, hnone,
      throw_not_find]
  have hhit : ∀ cmd, table_find t.command_table p0 = some cmd →
      t.invoke_args bundle s
        = .ok { outcome := (cmd.invoke bundle s).1.map (fun _ => ()),
                state := (cmd.invoke bundle s).2, terminal := t } := by
    intro cmd hsome
    simp [invoke_args, invoke_args_with, CommandArgs.at_index, vec_at, hpos, hsome]
  refine ⟨fun hno => hmiss ((table_find_none_iff _ _).mpr hno), hhit, ?_, ?_, ?_⟩
  · intro cmd h r s' hsome hh hret
    rw [hhit cmd hsome]
    simp [Command.invoke, Command.call_handler, hh, hret, Except.map]
  · intro hquiet
    constructor
    · rintro ⟨d, hd, hout⟩
      rcases hfind : table_find t.command_table p0 with _ | cmd
      · exact (table_find_none_iff _ _).mp hfind
      · exfalso
        rw [hhit cmd hfind] at hd
        have hd' := Except.ok.inj hd
        rw [← hd'] at hout
        simp only at hout
        apply hquiet cmd hfind
        rcases hc : (cmd.invoke bundle s).1 with x | r
        · rw [hc] at hout
          simp only [Except.map] at hout
          rw [Except.error.injEq] at hout
          rw [hout]
        · rw [hc] at hout
          simp [Except.map] at hout
    · intro hno
      exact ⟨_, hmiss ((table_find_none_iff _ _).mpr hno), rfl⟩
  · intro line hparse
    simp [invoke, hparse, invoke_args]

/-- The lookup of C19 is by exact equality: on a terminal with `log_str` registered,
the prefix `log` is not found, and the dispatch throws the not-found exception. -/
theorem dispatch_not_found_iff_witness :
    sample_terminal.invoke_args
        { options := [], flags := [], positional := ["log".toList] } ()
      = .ok { outcome := .error (.runtime_error "Not find command!"),
              state := (), terminal := sample_terminal } :=
  (dispatch_not_found_iff sample_terminal
    { options := [], flags := [], positional := ["log".toList] } "log".toList [] ()
    rfl).1 (by
      intro e he
      simp only [sample_terminal, register_command_named, table_assign,
        List.mem_singleton] at he
      subst he
      decide)

/-- C20: when the line parses to a bundle whose `positional[0]` is no key of the
table, the dispatch with a fallback ends as the one call of the fallback does and
leaves the terminal, so the table, as it was; with every call logged, the log grows
by exactly one fallback call and no handler call. -/
theorem dispatch_fallback (t : Terminal σ) (line : Str) (fallback : Callable σ Unit Unit)
    (s : σ) (log : List Call) (p0 : Str) (rest : List Str) (bundle : CommandArgs)
    (hparse : CommandArgs.parse_string line = .ok bundle)
    (hpos : bundle.positional = p0 :: rest)
    (habs : ∀ e ∈ t.command_table, e.1 ≠ p0) :
    t.invoke_with line fallback s
      = .ok { outcome := (fallback () s).1, state := (fallback () s).2, terminal := t } ∧
    (logged t).invoke_with line (logged_callback fallback) (s, log)
      = .ok { outcome := (fallback () s).1,
              state := ((fallback () s).2, log ++ [Call.fallback]),
              terminal := logged t } := by
  have hnone := (table_find_none_iff _ _).mpr habs
  constructor
  · simp [invoke_with, hparse, invoke_args_with, CommandArgs.at_index, vec_at, hpos, hnone]
  · simp [invoke_with, hparse, invoke_args_with, CommandArgs.at_index, vec_at, hpos, logged,
      table_find_logged, hnone, logged_callback]

/-- The dispatch of the unregistered `help` of use_terminal.cpp:30: one fallback
call, no handler call, the terminal unchanged. -/
theorem dispatch_fallback_witness :
    (logged sample_terminal).invoke_with "help".toList
        (logged_callback sample_fallback) ((), [])
      = .ok { outcome := .ok (), state := ((), [Call.fallback]),
              terminal := logged sample_terminal } :=
  (dispatch_fallback sample_terminal "help".toList sample_fallback () []
    "help".toList []
    { options := [], flags := [], positional := ["help".toList] }
    (by decide) rfl (by
      intro e he
      simp only [sample_terminal, register_command_named, table_assign,
        List.mem_singleton] at he
      subst he
      decide)).2

end Terminal

end cmdkit

/-! ## Chains of `and_then`, bounds of `parse`, and the positional list -/

namespace cmdkit

namespace Result

variable {T E U W σ : Type}

/-- C24: `and_then` is associative: `r.and_then(f).and_then(g)` ends as
`r.and_then(x -> f(x).and_then(g))` does, in value, exception and external state,
for every Result `r` and callables `f`, `g`; and `ok(v).and_then(f)` is `f(v)`
(left identity). -/
theorem and_then_assoc (r : Result T E) (f : Callable σ T (Result U E))
    (g : Callable σ U (Result W E)) (s : σ) (v : T) :
    and_then_next (r.and_then f s) g = r.and_then (and_then_after f g) s ∧
    (Result.ok v : Result T E).and_then f s = f v s := by
  refine ⟨?_, rfl⟩
  rcases r with ⟨flag, v | e⟩ <;> cases flag <;>
    simp [and_then, and_then_next, and_then_after, is_ok, is_err, unwrap, unwrap_err,
      std_get_T, std_get_E, Result.err]

end Result

namespace CommandArgs

/-- C23: `parse` never reads out of bounds and always returns a bundle: for every
token list, tokens shorter than two characters included, the tests of
command.hpp:29 and 33 return a value, every iteration inside the loop ends in a next
state, a marker in last position takes the flag branch, the value read of the
option branch is inside the list, and `parse` returns a bundle. -/
theorem parse_never_faults (args : List Str) :
    (∃ r, parse args = .ok r) ∧
    (∀ arg, ∃ b, marker_test args arg = .ok b) ∧
    (∀ idx, idx < args.length → ∃ b, flag_test args idx = .ok b) ∧
    (∀ st : LoopState, st.idx < args.length → ∃ st', loop_body args st = .ok st') ∧
    (∀ (st : LoopState) (arg : Str), args.length > 2 → args[st.idx]? = some arg →
      ['-', '-'] <+: arg → st.idx = args.length - 1 →
      loop_body args st = .ok {
        idx := st.idx + 1,
        result := { st.result with flags := uset_insert st.result.flags (arg.drop 2) } }) ∧
    (∀ (st : LoopState) (arg : Str), args.length > 2 → args[st.idx]? = some arg →
      ['-', '-'] <+: arg → ¬ (st.idx = args.length - 1 ∨ NextQualifies args st.idx) →
      st.idx + 1 < args.length ∧ ∃ value, vec_at args (st.idx + 1) = .ok value) := by
  refine ⟨?_, ?_, ?_, ?_, ?_, ?_⟩
  · obtain ⟨st, _, _, hp⟩ := parse_total args
    exact ⟨_, hp⟩
  · intro arg; exact ⟨_, marker_test_eq args arg⟩
  · intro idx hi
    obtain ⟨b, hb, _⟩ := flag_test_eq args idx hi
    exact ⟨b, hb⟩
  · intro st hi
    obtain ⟨st', hb, _⟩ := loop_body_total args st hi
    exact ⟨st', hb⟩
  · intro st arg hlen ha hp hlast
    exact loop_body_flag args st arg ha hlen hp (Or.inl hlast)
  · intro st arg hlen ha hp hf
    have hi : st.idx < args.length := by
      by_contra hc
      rw [List.getElem?_eq_none (by omega)] at ha
      cases ha
    have hlt : st.idx + 1 < args.length := by
      have : st.idx ≠ args.length - 1 := fun h => hf (Or.inl h)
      omega
    exact ⟨hlt, args[st.idx + 1], by simp [vec_at, List.getElem?_eq_getElem hlt]⟩

/-- The bundle of C23 on tokens of zero, one and two characters. -/
theorem parse_never_faults_witness :
    parse ["--".toList, "-".toList, [], "--x".toList]
      = .ok { options := [([], "-".toList)], flags := ["x".toList], positional := [[]] } ∧
    ∃ r, parse ["-".toList, [], "--".toList] = .ok r :=
  ⟨by decide, (parse_never_faults ["-".toList, [], "--".toList]).1⟩

/-- One iteration keeps the invariant on `positional`. -/
theorem loop_body_inv (args : List Str) (st st' : LoopState) (hi : st.idx < args.length)
    (hinv : PositionalInv args st) (hb : loop_body args st = .ok st') :
    PositionalInv args st' := by
  have ha : args[st.idx]? = some args[st.idx] := List.getElem?_eq_getElem hi
  by_cases hm : args.length > 2 ∧ ['-', '-'] <+: args[st.idx]
  · by_cases hf : st.idx = args.length - 1 ∨ NextQualifies args st.idx
    · rw [loop_body_flag args st _ ha hm.1 hm.2 hf] at hb
      have := Except.ok.inj hb
      subst this
      exact ⟨hinv.1.trans (List.take_sublist_take_left args (by simp)), hinv.2⟩
    · obtain ⟨value, _, hb'⟩ := loop_body_option args st _ ha hm.1 hm.2 hf
      rw [hb'] at hb
      have := Except.ok.inj hb
      subst this
      exact ⟨hinv.1.trans (List.take_sublist_take_left args (by simp only; omega)), hinv.2⟩
  · rw [loop_body_positional args st _ ha hm] at hb
    have := Except.ok.inj hb
    subst this
    constructor
    · have htake : args.take (st.idx + 1) = args.take st.idx ++ [args[st.idx]] := by
        rw [List.take_succ, ha]; rfl
      simp only [htake]
      exact List.Sublist.append hinv.1 (List.Sublist.refl _)
    · intro hlen t ht
      rcases List.mem_append.mp ht with h | h
      · exact hinv.2 hlen t h
      · rw [List.mem_singleton] at h
        subst h
        exact fun hp => hm ⟨hlen, hp⟩

/-- The loop keeps the invariant on `positional`. -/
theorem run_loop_inv (args : List Str) (n : Nat) (st st' : LoopState)
    (hinv : PositionalInv args st) (hr : run_loop args n st = .ok st') :
    PositionalInv args st' := by
  induction n generalizing st with
  | zero =>
    simp only [run_loop, Except.ok.injEq] at hr
    subst hr; exact hinv
  | succ n ih =>
    by_cases hi : st.idx < args.length
    · simp only [run_loop, hi, if_true] at hr
      rcases hb : loop_body args st with x | st1
      · rw [hb] at hr; cases hr
      · rw [hb] at hr
        exact ih st1 (loop_body_inv args st st1 hi hinv hb) hr
    · rw [run_loop_done args _ st hi] at hr
      have := Except.ok.inj hr
      subst this; exact hinv

/-- C25: the positional list of the parsed bundle is an order-preserving sublist of
the tokens, and when there are more than two tokens none of its elements starts with
`--`. -/
theorem positional_sublist (args : List Str) :
    ∃ r, parse args = .ok r ∧ r.get_positional.Sublist args ∧
      (args.length > 2 → ∀ t ∈ r.get_positional, ¬ ['-', '-'] <+: t) := by
  obtain ⟨st, hr, hidx, hp⟩ := parse_total args
  have hinv := run_loop_inv args _ _ st
    ⟨by simp [empty], fun _ t ht => by simp [empty] at ht⟩ hr
  refine ⟨st.result, hp, ?_, hinv.2⟩
  have h := hinv.1
  rw [hidx, List.take_length] at h
  exact h

/-- The line `string_str Hello World --able --divide ->` of use_command.cpp:62: the
positional list is the three leading tokens. -/
theorem positional_sublist_witness :
    parse ["string_str".toList, "Hello".toList, "World".toList, "--able".toList,
        "--divide".toList, "->".toList]
      = .ok { options := [("divide".toList, "->".toList)], flags := ["able".toList],
              positional := ["string_str".toList, "Hello".toList, "World".toList] } ∧
    ∃ r, parse ["--".toList, "--".toList, "--".toList, "x".toList] = .ok r ∧
      r.get_positional.Sublist ["--".toList, "--".toList, "--".toList, "x".toList] ∧
      ∀ t ∈ r.get_positional, ¬ ['-', '-'] <+: t :=
  ⟨by decide,
   (positional_sublist ["--".toList, "--".toList, "--".toList, "x".toList]).elim
     (fun r h => ⟨r, h.1, h.2.1, h.2.2 (by decide)⟩)⟩

end CommandArgs

end cmdkit

/-! ## Re-registration and the empty positional list -/

namespace cmdkit

namespace Terminal

variable {σ : Type}

/-- The keys after `command_table[name] = cmd`: unchanged when `name` is a key, one
more at the end otherwise. -/
theorem keys_table_assign (m : List (Str × Command σ)) (name : Str) (cmd : Command σ) :
    (table_assign m name cmd).map Prod.fst
      = if name ∈ m.map Prod.fst then m.map Prod.fst else m.map Prod.fst ++ [name] := by
  induction m with
  | nil => simp [table_assign]
  | cons e m ih =>
    rcases e with ⟨k, c⟩
    by_cases h : k = name
    · subst h
      simp only [table_assign, if_true, List.map_cons, List.mem_cons, true_or]
    · have hne : ¬ name = k := fun h' => h h'.symm
      by_cases hmem : name ∈ m.map Prod.fst
      · simp only [table_assign, h, if_false, List.map_cons, ih, hmem, if_true,
          List.mem_cons, or_true]
      · simp only [table_assign, h, if_false, List.map_cons, ih, hmem, List.mem_cons, hne,
          or_self, List.cons_append]

/-- Registration keeps the keys of the table distinct and makes `name` a key. -/
theorem register_keys (t : Terminal σ) (name : Str) (cmd : Command σ)
    (hwf : t.KeysUnique) :
    (t.register_command name cmd).KeysUnique ∧
    name ∈ (t.register_command name cmd).command_table.map Prod.fst := by
  unfold KeysUnique register_command at *
  simp only [keys_table_assign]
  by_cases hmem : name ∈ t.command_table.map Prod.fst
  · simp only [hmem, if_true]; exact ⟨hwf, trivial⟩
  · simp only [hmem, if_false]
    refine ⟨?_, List.mem_append_right _ (List.mem_singleton_self _)⟩
    rw [List.nodup_append]
    refine ⟨hwf, List.nodup_singleton _, ?_⟩
    intro a ha hb
    rw [List.mem_singleton] at hb
    subst hb; exact hmem ha

/-- A table with distinct keys has exactly one entry for each of its keys. -/
theorem one_entry (m : List (Str × Command σ)) (n : Str)
    (hnd : (m.map Prod.fst).Nodup) (hmem : n ∈ m.map Prod.fst) :
    (m.filter (fun e => decide (e.1 = n))).length = 1 := by
  induction m with
  | nil => cases hmem
  | cons e m ih =>
    rcases e with ⟨k, c⟩
    rw [List.map_cons, List.nodup_cons] at hnd
    by_cases h : k = n
    · subst h
      have hnone : m.filter (fun e => decide (e.1 = k)) = [] := by
        apply List.filter_eq_nil_iff.mpr
        intro e he hk
        apply hnd.1
        have hek : e.1 = k := by simpa using hk
        have hmem' : e.1 ∈ m.map Prod.fst := List.mem_map_of_mem Prod.fst he
        rw [hek] at hmem'
        exact hmem'
      rw [List.filter_cons]
      simp only [decide_True, if_true, hnone, List.length_singleton]
    · have hm' : n ∈ m.map Prod.fst := by
        rcases List.mem_cons.mp hmem with h' | h'
        · exact absurd h'.symm h
        · exact h'
      rw [List.filter_cons]
      simp only [h, decide_False, Bool.false_eq_true, if_false]
      exact ih hnd.2 hm'

/-- C21: re-registration overwrites: after `register_command(n, c1)` and then
`register_command(n, c2)` on a table with distinct keys, the lookup of `n` finds
`c2`, the keys are still distinct and exactly one entry has the key `n`; the
dispatch of a line whose `positional[0]` is `n` ends as the one call of the handler
of `c2` on the parsed bundle does, whatever `c1` is; and the one-argument form with
two commands named `n` builds the same table. -/
theorem reregister_overwrites (t : Terminal σ) (n : Str) (c1 c2 : Command σ)
    (h2 : Callable σ CommandArgs (Result VoidPtr Str)) (line : Str)
    (fallback : Callable σ Unit Unit) (s : σ) (bundle : CommandArgs) (rest : List Str)
    (hwf : t.KeysUnique)
    (hparse : CommandArgs.parse_string line = .ok bundle)
    (hpos : bundle.positional = n :: rest)
    (hh : c2.handler = some h2) :
    table_find ((t.register_command n c1).register_command n c2).command_table n = some c2 ∧
    ((t.register_command n c1).register_command n c2).KeysUnique ∧
    (((t.register_command n c1).register_command n c2).command_table.filter
      (fun e => decide (e.1 = n))).length = 1 ∧
    ((t.register_command n c1).register_command n c2).invoke_with line fallback s
      = .ok { outcome := (h2 bundle s).1.map (fun _ => ()),
              state := (h2 bundle s).2,
              terminal := (t.register_command n c1).register_command n c2 } ∧
    (c1.get_name = n → c2.get_name = n →
      (t.register_command_named c1).register_command_named c2
        = (t.register_command n c1).register_command n c2) := by
  have hfind : table_find
      ((t.register_command n c1).register_command n c2).command_table n = some c2 := by
    simp [register_command, table_find_assign]
  have hk1 := register_keys t n c1 hwf
  have hk2 := register_keys (t.register_command n c1) n c2 hk1.1
  refine ⟨hfind, hk2.1, one_entry _ n hk2.1 hk2.2, ?_, ?_⟩
  · simp [invoke_with, hparse, invoke_args_with, CommandArgs.at_index, vec_at, hpos, hfind,
      Command.invoke, Command.call_handler, hh]
  · intro hn1 hn2
    simp [register_command_named, register_command, hn1, hn2]

/-- Two commands named `x` registered in turn on an empty terminal, each counting its
calls: the dispatch of `x` leaves the first counter at 0 and the second at 1. -/
theorem reregister_overwrites_witness :
    (((register_command_named { command_table := [] } first_x).register_command_named
        second_x).invoke_with "x".toList (fun _ s => (.ok (), s)) ((), 0, 0)).map
        (fun d => (d.outcome, d.state))
      = .ok (.ok (), ((), 0, 1)) ∧
    (((register_command_named { command_table := [] } first_x).register_command_named
        second_x).command_table.map Prod.fst) = ["x".toList] :=
  ⟨congrArg (Except.map (fun d => (d.outcome, d.state)))
    (reregister_overwrites { command_table := [] } "x".toList first_x second_x
      (count_second (fun _ s => (.ok (Result.ok 0), s))) "x".toList
      (fun _ s => (.ok (), s)) ((), 0, 0)
      { options := [], flags := [], positional := ["x".toList] } []
      List.nodup_nil (by decide) rfl rfl).2.2.2.1,
   by decide⟩

/-- C22: the dispatch with a fallback is not total: on a line whose parsed bundle
has no positional token (the empty line, a blank line, a line of flags only) the
read `command[0]` of terminal.hpp:29 is outside the vector for every registry. Every
line parses to a bundle; the dispatch reads out of bounds exactly when its
positional list is empty, and ends with a handler or the fallback otherwise. -/
theorem dispatch_empty_positional (t : Terminal σ) (fallback : Callable σ Unit Unit)
    (s : σ) :
    t.invoke_with [] fallback s = .error .out_of_bounds ∧
    t.invoke_with "   ".toList fallback s = .error .out_of_bounds ∧
    t.invoke_with "--a --bb --cc".toList fallback s = .error .out_of_bounds ∧
    (∀ line, ∃ bundle, CommandArgs.parse_string line = .ok bundle ∧
      (bundle.positional = [] → t.invoke_with line fallback s = .error .out_of_bounds) ∧
      (bundle.positional ≠ [] → ∃ d, t.invoke_with line fallback s = .ok d)) := by
  refine ⟨rfl, ?_, ?_, ?_⟩
  · have hp : CommandArgs.parse_string "   ".toList = .ok CommandArgs.empty := by decide
    unfold invoke_with
    rw [hp]; rfl
  · have hp : CommandArgs.parse_string "--a --bb --cc".toList
        = .ok { options := [], flags := ["a".toList, "bb".toList, "cc".toList],
                positional := [] } := by decide
    unfold invoke_with
    rw [hp]; rfl
  · intro line
    obtain ⟨st, _, _, hp⟩ := CommandArgs.parse_total (maximal_runs line)
    have hps : CommandArgs.parse_string line = .ok st.result := by
      simp only [CommandArgs.parse_string, tokenize_eq, hp]
    refine ⟨st.result, hps, ?_, ?_⟩
    · intro hnil
      simp [invoke_with, hps, invoke_args_with, CommandArgs.at_index, vec_at, hnil]
    · intro hne
      obtain ⟨p0, rest, hcons⟩ := List.exists_cons_of_ne_nil hne
      rcases hfind : table_find t.command_table p0 with _ | cmd
      · refine ⟨{ outcome := (fallback () s).1, state := (fallback () s).2,
                  terminal := t }, ?_⟩
        simp [invoke_with, hps, invoke_args_with, CommandArgs.at_index, vec_at, hcons,
          hfind]
      · refine ⟨{ outcome := (cmd.invoke st.result s).1.map (fun _ => ()),
                  state := (cmd.invoke st.result s).2, terminal := t }, ?_⟩
        simp [invoke_with, hps, invoke_args_with, CommandArgs.at_index, vec_at, hcons,
          hfind]

end Terminal

end cmdkit

